import Mathlib

/-!
# Verification of the `web-crawler-bd` crawler against its specification

This development shallowly embeds the Python sources of the crawler
(`src/crawl.py` and collaborators) in Lean 4 and settles the frozen claims
C1..C10 about it.

Layout:
* `Urllib`   — a faithful model of the parts of CPython 3.11's `urllib.parse`
               used by `crawl.py` (`urlparse`, `urlunparse`, `parse_qsl`,
               `urlencode`/`quote_plus`, `unquote`, `urljoin`, and the
               `hostname`/`port` netloc accessors), working over `List Char`.
* `Crawl`    — the pure URL functions of `crawl.py` (`canonicalize_url`,
               `is_crawlable_url`, `has_skipped_extension`, `normalize_url`)
               and the extraction functions over an abstract HTML document.
* `Fetch`    — a model of `AsyncCrawler.get_html` as a function of the network
               responses, recording semaphore/sleep events.
* `Engine`   — a labelled transition system for the concurrent crawl engine
               (`add_page_visit`, `crawl_page`, `crawl`), with the atomic
               sections of the single-threaded asyncio program as steps.
* Theorems `C1_...` .. `C10_...` settling the claims.
-/

namespace Urllib

/-! ## Basic character/list utilities mirroring Python `str` operations -/

def isAsciiDigit (c : Char) : Bool := '0' ≤ c && c ≤ '9'

def isAsciiAlpha (c : Char) : Bool := ('a' ≤ c && c ≤ 'z') || ('A' ≤ c && c ≤ 'Z')

def isAsciiAlphaNum (c : Char) : Bool := isAsciiAlpha c || isAsciiDigit c

/-- ASCII lowercasing of one character (Python `str.lower` restricted to the
ASCII range; the inputs we lowercase are ASCII-checked scheme/host text). -/
def lowerCh (c : Char) : Char :=
  if 'A' ≤ c && c ≤ 'Z' then Char.ofNat (c.toNat + 32) else c

def lowerList (l : List Char) : List Char := l.map lowerCh

/-- Index of the first occurrence of `c` (Python `str.find`). -/
def findCh (c : Char) : List Char → Option Nat
  | [] => none
  | x :: xs => if x = c then some 0 else (findCh c xs).map (· + 1)

/-- Index of the last occurrence of `c` (Python `str.rfind`). -/
def rfindCh (c : Char) (l : List Char) : Option Nat :=
  (findCh c l.reverse).map (fun i => l.length - 1 - i)

/-- Index of the first occurrence of `c` at or after position `start`
(Python `str.find(c, start)`). -/
def findChFrom (c : Char) (start : Nat) (l : List Char) : Option Nat :=
  (findCh c (l.drop start)).map (· + start)

/-- Split at the first occurrence of `c`; `none` if absent
(Python `str.split(c, 1)` / `str.partition(c)`). -/
def splitFirst (c : Char) : List Char → List Char × Option (List Char)
  | [] => ([], none)
  | x :: xs =>
    if x = c then ([], some xs)
    else
      let r := splitFirst c xs
      (x :: r.1, r.2)

/-- Python `str.split(sep)` for a one-character separator (`''.split` → `['']`). -/
def splitOnCh (c : Char) : List Char → List (List Char)
  | [] => [[]]
  | x :: xs =>
    if x = c then [] :: splitOnCh c xs
    else
      match splitOnCh c xs with
      | [] => [[x]]
      | h :: t => (x :: h) :: t

/-- `"&".join` at the list-of-chars level. -/
def joinCh (c : Char) : List (List Char) → List Char
  | [] => []
  | [p] => p
  | p :: rest => p ++ c :: joinCh c rest

/-- `pat` occurs as a contiguous run in `l` (Python `in` on strings). -/
def infixOfL (pat : List Char) : List Char → Bool
  | [] => pat = []
  | c :: rest => (c :: rest).take pat.length = pat || infixOfL pat rest

/-- The part after the last occurrence of `c`, or the whole list if absent
(Python `str.rpartition(c)[2]`). -/
def afterLast (c : Char) (l : List Char) : List Char :=
  match rfindCh c l with
  | none => l
  | some i => l.drop (i + 1)

/-! ## UTF-8 encoding and decoding

`urllib.parse` percent-codecs operate on the UTF-8 encoding of strings
(`quote` encodes each byte; `unquote` decodes byte sequences with
`errors='replace'`). -/

/-- The UTF-8 bytes of one character (standard 1–4 byte encoding). -/
def utf8EncodeChar (c : Char) : List Nat :=
  let n := c.toNat
  if n < 0x80 then [n]
  else if n < 0x800 then [0xC0 + n / 64, 0x80 + n % 64]
  else if n < 0x10000 then [0xE0 + n / 4096, 0x80 + n / 64 % 64, 0x80 + n % 64]
  else [0xF0 + n / 0x40000, 0x80 + n / 4096 % 64, 0x80 + n / 64 % 64, 0x80 + n % 64]

def utf8Encode (l : List Char) : List Nat := l.flatMap utf8EncodeChar

/-- The U+FFFD replacement character used by `errors='replace'`. -/
def replacementChar : Char := Char.ofNat 0xFFFD

def isCont (b : Nat) : Bool := 0x80 ≤ b && b ≤ 0xBF

/-- The admissible range of the first continuation byte for a given lead byte
(restricting overlong forms, surrogates and values above U+10FFFF, as
CPython's UTF-8 decoder does). -/
def cont1Ok (lead b : Nat) : Bool :=
  if lead = 0xE0 then 0xA0 ≤ b && b ≤ 0xBF
  else if lead = 0xED then 0x80 ≤ b && b ≤ 0x9F
  else if lead = 0xF0 then 0x90 ≤ b && b ≤ 0xBF
  else if lead = 0xF4 then 0x80 ≤ b && b ≤ 0x8F
  else isCont b

/-- For a valid multi-byte lead: its value contribution and the number of
continuation bytes that must follow (restricting overlong forms and values
above U+10FFFF together with `cont1Ok`). -/
def leadInfo (b : Nat) : Option (Nat × Nat) :=
  if 0xC2 ≤ b && b ≤ 0xDF then some (b - 0xC0, 1)
  else if 0xE0 ≤ b && b ≤ 0xEF then some (b - 0xE0, 2)
  else if 0xF0 ≤ b && b ≤ 0xF4 then some (b - 0xF0, 3)
  else none

def contCount (b : Nat) : Nat := if b ≤ 0xDF then 1 else if b ≤ 0xEF then 2 else 3

/-- UTF-8 decoding with `errors='replace'`, as a byte-at-a-time state machine.
The pending state `some (lead, acc, got)` records an incomplete sequence:
its lead byte, the value accumulated so far, and how many continuation bytes
have been consumed. A byte that cannot continue the pending sequence replaces
the maximal subpart with one U+FFFD and is reconsidered as a lead, matching
CPython's decoder. -/
def utf8DecodeAux : Option (Nat × Nat × Nat) → List Nat → List Char
  | some _, [] => [replacementChar]
  | none, [] => []
  | none, b :: rest =>
    if b < 0x80 then Char.ofNat b :: utf8DecodeAux none rest
    else
      match leadInfo b with
      | some i => utf8DecodeAux (some (b, i.1, 0)) rest
      | none => replacementChar :: utf8DecodeAux none rest
  | some (lead, acc, got), b :: rest =>
    if (if got = 0 then cont1Ok lead b else isCont b) then
      let acc' := acc * 64 + (b - 0x80)
      if got + 1 = contCount lead then Char.ofNat acc' :: utf8DecodeAux none rest
      else utf8DecodeAux (some (lead, acc', got + 1)) rest
    else
      replacementChar ::
        (if b < 0x80 then Char.ofNat b :: utf8DecodeAux none rest
         else
           match leadInfo b with
           | some i => utf8DecodeAux (some (b, i.1, 0)) rest
           | none => replacementChar :: utf8DecodeAux none rest)

def utf8DecodeReplace (l : List Nat) : List Char := utf8DecodeAux none l

/-! ## Percent-codec (`quote_plus`, `unquote`, as used by
`urlencode(..., quote_via=quote_plus)` and `parse_qsl`) -/

def hexDigitChars : List Char := "0123456789ABCDEF".data

def hexCh (n : Nat) : Char := hexDigitChars.getD n '0'

/-- `%XX` (uppercase) escape of a byte. -/
def byteEscape (b : Nat) : List Char := ['%', hexCh (b / 16), hexCh (b % 16)]

/-- Hex value of a character, accepting both cases (CPython's `_hextobyte`
table is built from `'0123456789ABCDEFabcdef'`). -/
def hexVal? (c : Char) : Option Nat :=
  if '0' ≤ c && c ≤ '9' then some (c.toNat - '0'.toNat)
  else if 'A' ≤ c && c ≤ 'F' then some (c.toNat - 'A'.toNat + 10)
  else if 'a' ≤ c && c ≤ 'f' then some (c.toNat - 'a'.toNat + 10)
  else none

/-- `_ALWAYS_SAFE`: characters never quoted by `quote`. -/
def alwaysSafe (c : Char) : Bool :=
  isAsciiAlphaNum c || c = '_' || c = '.' || c = '-' || c = '~'

/-- One character of `quote_plus(s, safe='')` output: safe characters are kept,
a space becomes `+`, and every other character is `%XX`-escaped per UTF-8
byte. -/
def quotePlusChar (c : Char) : List Char :=
  if alwaysSafe c then [c]
  else if c = ' ' then ['+']
  else (utf8EncodeChar c).flatMap byteEscape

def quotePlusList (l : List Char) : List Char := l.flatMap quotePlusChar

def quotePlus (s : String) : String := String.mk (quotePlusList s.data)

/-- `unquote_to_bytes` over the characters of (a chunk of) a string: a `%`
followed by two hex digits yields that byte, an unparsable `%` stands for
itself, and any other character contributes its UTF-8 bytes. -/
def unquoteToBytes : List Char → List Nat
  | [] => []
  | c :: rest =>
    if c = '%' then
      match rest with
      | c1 :: c2 :: rest2 =>
        match hexVal? c1, hexVal? c2 with
        | some h, some lo => (h * 16 + lo) :: unquoteToBytes rest2
        | _, _ => 0x25 :: unquoteToBytes (c1 :: c2 :: rest2)
      | [c1] => 0x25 :: unquoteToBytes [c1]
      | [] => [0x25]
    else utf8EncodeChar c ++ unquoteToBytes rest

def isAsciiCh (c : Char) : Bool := c.toNat ≤ 0x7F

/-- Helper for `pyUnquote`: `run` is the current maximal ASCII run, collected
in reverse. At the end of a run it is percent-decoded to bytes and
UTF-8-decoded with replacement. -/
def pyUnquoteAux (run : List Char) : List Char → List Char
  | [] => utf8DecodeReplace (unquoteToBytes run.reverse)
  | c :: rest =>
    if isAsciiCh c then pyUnquoteAux (c :: run) rest
    else
      utf8DecodeReplace (unquoteToBytes run.reverse) ++ c :: pyUnquoteAux [] rest

/-- `unquote(s, encoding='utf-8', errors='replace')`: maximal ASCII runs are
percent-decoded to bytes and UTF-8-decoded; non-ASCII characters pass
through unchanged. -/
def pyUnquote (l : List Char) : List Char := pyUnquoteAux [] l

/-- The `.replace('+', ' ')` preprocessing of `parse_qsl` /`unquote_plus`. -/
def plusToSpace (c : Char) : Char := if c = '+' then ' ' else c

/-- Decoding of one query-string token in `parse_qsl`:
`unquote(s.replace('+', ' '), 'utf-8', 'replace')`. -/
def unqPlus (l : List Char) : List Char := pyUnquote (l.map plusToSpace)

/-- Python `str.split('=', 1)` as used by `parse_qsl`. -/
def splitFirstEq (l : List Char) : Option (List Char × List Char) :=
  match splitFirst '=' l with
  | (a, some b) => some (a, b)
  | (_, none) => none

/-- `parse_qsl(qs, keep_blank_values=True)` (default `&` separator). -/
def parseQsl (qs : String) : List (String × String) :=
  if qs.data = [] then []
  else
    (splitOnCh '&' qs.data).filterMap fun nv =>
      if nv = [] then none
      else
        match splitFirstEq nv with
        | some (n, v) => some (String.mk (unqPlus n), String.mk (unqPlus v))
        | none => some (String.mk (unqPlus nv), "")

/-- `urlencode(pairs, doseq=True)` on string pairs: `quote_plus` each side and
join with `k=v` and `&`. -/
def urlencodePairs (l : List (String × String)) : String :=
  String.mk (joinCh '&' (l.map fun kv => quotePlusList kv.1.data ++ '=' :: quotePlusList kv.2.data))

/-! ## `urlsplit` / `urlparse` / `urlunsplit` / `urlunparse` -/

/-- Characters valid in scheme names (`scheme_chars`). -/
def schemeChars : List Char :=
  ("abcdefghijklmnopqrstuvwxyzABCDEFGHIJKLMNOPQRSTUVWXYZ0123456789+-.").data

/-- `_UNSAFE_URL_BYTES_TO_REMOVE`: tab, CR and LF are removed before parsing. -/
def stripUnsafe (l : List Char) : List Char :=
  l.filter fun c => !(c = '\t' || c = '\r' || c = '\n')

/-- A character of `_WHATWG_C0_CONTROL_OR_SPACE`. -/
def isC0OrSpace (c : Char) : Bool := c.toNat ≤ 0x20

/-- `url.lstrip(_WHATWG_C0_CONTROL_OR_SPACE)`. -/
def lstripC0 (l : List Char) : List Char := l.dropWhile isC0OrSpace

/-- `scheme.strip(_WHATWG_C0_CONTROL_OR_SPACE)` (both ends, for the default
scheme argument). -/
def stripC0 (l : List Char) : List Char :=
  ((lstripC0 l).reverse.dropWhile isC0OrSpace).reverse

/-- The scheme-detection step of `urlsplit`: if the text before the first `:`
is a valid scheme (first character ASCII alphabetic, all characters in
`scheme_chars`), split it off lowercased; otherwise keep the default. -/
def splitScheme (dflt url : List Char) : List Char × List Char :=
  match findCh ':' url with
  | some i =>
    if 0 < i then
      match url with
      | c :: _ =>
        if isAsciiAlpha c && (url.take i).all (fun d => schemeChars.contains d) then
          (lowerList (url.take i), url.drop (i + 1))
        else (dflt, url)
      | [] => (dflt, url)
    else (dflt, url)
  | none => (dflt, url)

def isNetlocDelim (c : Char) : Bool := c = '/' || c = '?' || c = '#'

/-- `_splitnetloc(url, 2)` applied after the `//` has been dropped: the netloc
runs to the first `/`, `?` or `#`. -/
def splitnetloc (l : List Char) : List Char × List Char :=
  (l.takeWhile (fun c => !isNetlocDelim c), l.dropWhile (fun c => !isNetlocDelim c))

structure SplitResult where
  scheme : String
  netloc : String
  path : String
  query : String
  fragment : String
deriving Repr, DecidableEq

/-- The fragment/query splitting tail of `urlsplit` (fragment first, then
query, each at the first occurrence). -/
def splitFragQuery (scheme netloc rest : List Char) : SplitResult :=
  let fr := splitFirst '#' rest
  let qu := splitFirst '?' fr.1
  ⟨String.mk scheme, String.mk netloc, String.mk qu.1,
    String.mk (qu.2.getD []), String.mk (fr.2.getD [])⟩

/-- `urlsplit(url, scheme=dflt, allow_fragments=True)` (CPython 3.11.6).

Two validation steps that never fire for ASCII hosts without brackets are not
modelled: `_checknetloc` (which rejects some non-ASCII netlocs whose NFKC
normalization introduces URL delimiters) and `_check_bracketed_host` (which
requires the text inside `[...]` to be a valid IPv6/IPvFuture literal). -/
def urlsplitE (url : String) (dflt : String := "") : Except String SplitResult :=
  let u0 := stripUnsafe (lstripC0 url.data)
  let su := splitScheme (stripUnsafe (stripC0 dflt.data)) u0
  if su.2.take 2 = ['/', '/'] then
    let nl := splitnetloc (su.2.drop 2)
    if (nl.1.contains '[' && !nl.1.contains ']') ||
        (nl.1.contains ']' && !nl.1.contains '[') then
      .error "Invalid IPv6 URL"
    else
      .ok (splitFragQuery su.1 nl.1 nl.2)
  else
    .ok (splitFragQuery su.1 [] su.2)

/-- `uses_params`. -/
def usesParams : List String :=
  ["", "ftp", "hdl", "prospero", "http", "imap", "https", "shttp", "rtsp",
   "rtspu", "sip", "sips", "mms", "sftp", "tel"]

/-- `uses_netloc`. -/
def usesNetloc : List String :=
  ["", "ftp", "http", "gopher", "nntp", "telnet", "imap", "wais", "file",
   "mms", "https", "shttp", "snews", "prospero", "rtsp", "rtspu", "rsync",
   "svn", "svn+ssh", "sftp", "nfs", "git", "git+ssh", "ws", "wss"]

/-- `uses_relative`. -/
def usesRelative : List String :=
  ["", "ftp", "http", "gopher", "nntp", "imap", "wais", "file", "https",
   "shttp", "mms", "prospero", "rtsp", "rtspu", "sftp", "svn", "svn+ssh",
   "ws", "wss"]

/-- `_splitparams`: split params off the last path segment. -/
def splitparams (l : List Char) : List Char × List Char :=
  let i? :=
    if l.contains '/' then
      match rfindCh '/' l with
      | some r => findChFrom ';' r l
      | none => none
    else findCh ';' l
  match i? with
  | some i => (l.take i, l.drop (i + 1))
  | none => (l, [])

structure ParseResult where
  scheme : String
  netloc : String
  path : String
  params : String
  query : String
  fragment : String
deriving Repr, DecidableEq

/-- `urlparse(url, scheme=dflt, allow_fragments=True)`. -/
def urlparseE (url : String) (dflt : String := "") : Except String ParseResult := do
  let s ← urlsplitE url dflt
  let pp :=
    if usesParams.contains s.scheme && s.path.data.contains ';' then
      splitparams s.path.data
    else (s.path.data, [])
  .ok ⟨s.scheme, s.netloc, String.mk pp.1, String.mk pp.2, s.query, s.fragment⟩

/-- `urlunsplit` (CPython 3.11). -/
def urlunsplit (scheme netloc path query fragment : String) : String :=
  let url := path
  let url :=
    if netloc ≠ "" ∨ (scheme ≠ "" ∧ usesNetloc.contains scheme ∧ url.data.take 2 ≠ ['/', '/']) then
      let url := if url ≠ "" ∧ url.data.head? ≠ some '/' then "/" ++ url else url
      "//" ++ netloc ++ url
    else url
  let url := if scheme ≠ "" then scheme ++ ":" ++ url else url
  let url := if query ≠ "" then url ++ "?" ++ query else url
  if fragment ≠ "" then url ++ "#" ++ fragment else url

/-- `urlunparse`. -/
def urlunparse (p : ParseResult) : String :=
  urlunsplit p.scheme p.netloc
    (if p.params ≠ "" then p.path ++ ";" ++ p.params else p.path) p.query p.fragment

/-! ## The `hostname` and `port` accessors of parse results -/

/-- `_hostinfo`: the raw host text and port text of a netloc. -/
def hostinfoOf (netloc : List Char) : List Char × Option (List Char) :=
  let hostinfo := afterLast '@' netloc
  let hp :=
    match splitFirst '[' hostinfo with
    | (_, some bracketed) =>
      let he := splitFirst ']' bracketed
      let port :=
        match he.2 with
        | some a => ((splitFirst ':' a).2).getD []
        | none => []
      (he.1, port)
    | (_, none) =>
      match splitFirst ':' hostinfo with
      | (h, some p) => (h, p)
      | (h, none) => (h, [])
  (hp.1, if hp.2 = [] then none else some hp.2)

/-- The `hostname` property: `None` for an empty host, otherwise the host
lowercased up to any `%`-separated IPv6 zone, which is preserved. -/
def hostnameOf (netloc : String) : Option String :=
  let h := (hostinfoOf netloc.data).1
  if h = [] then none
  else
    match splitFirst '%' h with
    | (hd, some zone) => some (String.mk (lowerList hd ++ '%' :: zone))
    | (hd, none) => some (String.mk (lowerList hd))

/-- The `port` property: `None` when absent; an all-ASCII-digit port is parsed
and range-checked, anything else raises. -/
def portOf (netloc : String) : Except String (Option Nat) :=
  match (hostinfoOf netloc.data).2 with
  | none => .ok none
  | some p =>
    if p.all isAsciiDigit then
      let v := p.foldl (fun a c => a * 10 + (c.toNat - '0'.toNat)) 0
      if v ≤ 65535 then .ok (some v)
      else .error "Port out of range 0-65535"
    else .error "Port could not be cast to integer value"

/-! ## `urljoin` -/

/-- `segments[1:-1] = filter(None, segments[1:-1])`: drop empty segments from
the middle of a nonempty list, keeping the first and last elements. -/
def filterMiddle (l : List (List Char)) : List (List Char) :=
  match l with
  | [] => []
  | [x] => [x]
  | x :: y :: rest =>
    x :: ((y :: rest).dropLast.filter (fun s => s ≠ [])) ++ [(y :: rest).getLastD []]

/-- The `.`/`..` resolution loop of `urljoin`. -/
def resolveSegs (segs : List (List Char)) : List (List Char) :=
  segs.foldl
    (fun acc seg =>
      if seg = ['.', '.'] then acc.dropLast
      else if seg = ['.'] then acc
      else acc ++ [seg]) []

/-- `urljoin(base, url)` (CPython 3.11, `allow_fragments=True`). -/
def urljoinE (base url : String) : Except String String := do
  if base = "" then .ok url
  else if url = "" then .ok base
  else do
    let b ← urlparseE base ""
    let p ← urlparseE url b.scheme
    if p.scheme ≠ b.scheme ∨ ¬ usesRelative.contains p.scheme then .ok url
    else do
      let retNow : Bool := usesNetloc.contains p.scheme ∧ p.netloc ≠ ""
      if retNow then .ok (urlunparse p)
      else do
        let netloc := if usesNetloc.contains p.scheme then b.netloc else p.netloc
        if p.path = "" ∧ p.params = "" then
          let query := if p.query = "" then b.query else p.query
          .ok (urlunparse ⟨p.scheme, netloc, b.path, b.params, query, p.fragment⟩)
        else do
          let baseParts0 := splitOnCh '/' b.path.data
          let baseParts :=
            if baseParts0.getLastD [] ≠ [] then baseParts0.dropLast else baseParts0
          let segments :=
            if p.path.data.head? = some '/' then splitOnCh '/' p.path.data
            else filterMiddle (baseParts ++ splitOnCh '/' p.path.data)
          let resolved := resolveSegs segments
          let resolved :=
            if segments.getLastD [] = ['.'] ∨ segments.getLastD [] = ['.', '.'] then
              resolved ++ [[]]
            else resolved
          let joined := joinCh '/' resolved
          let path := if joined = [] then "/" else String.mk joined
          .ok (urlunparse ⟨p.scheme, netloc, path, p.params, p.query, p.fragment⟩)

end Urllib

namespace Crawl

open Urllib

/-! ## The pure URL functions of `src/crawl.py`

Python exceptions raised inside these functions (from `urlparse` or the
`port` accessor) are modelled with `Except`. -/

/-- `k.lower().startswith("utm_")` for a query-parameter key. -/
def isUtmKey (k : String) : Bool := (lowerList k.data).take 4 = ['u', 't', 'm', '_']

/-- `canonicalize_url` (src/crawl.py:26-37): drop the fragment, drop `utm_*`
query parameters, re-encode the remaining parameters in order. -/
def canonicalize_url (url : String) : Except String String := do
  let parsed ← urlparseE url
  let q := parseQsl parsed.query
  let q := q.filter fun kv => !isUtmKey kv.1
  let newQuery := urlencodePairs q
  .ok (urlunparse ⟨parsed.scheme, parsed.netloc, parsed.path, parsed.params, newQuery, ""⟩)

def SKIP_SCHEMES : List String := ["mailto", "tel", "javascript"]

def SKIP_EXTENSIONS : List String :=
  [".pdf", ".zip", ".tar", ".gz", ".tgz", ".bz2", ".7z", ".rar",
   ".png", ".jpg", ".jpeg", ".gif", ".webp", ".svg", ".ico",
   ".mp3", ".wav", ".ogg", ".mp4", ".mov", ".avi", ".mkv", ".webm",
   ".exe", ".dmg", ".iso",
   ".doc", ".docx", ".ppt", ".pptx", ".xls", ".xlsx"]

/-- `is_crawlable_url` (src/crawl.py:40-52). -/
def is_crawlable_url (url : String) : Except String Bool := do
  let parsed ← urlparseE url
  let scheme := String.mk (lowerList parsed.scheme.data)
  if SKIP_SCHEMES.contains scheme then .ok false
  else if scheme ≠ "" ∧ scheme ≠ "http" ∧ scheme ≠ "https" then .ok false
  else .ok true

/-- `l` ends with `suf`. -/
def endsWithL (l suf : List Char) : Bool := (l.reverse.take suf.length) = suf.reverse

/-- `has_skipped_extension` (src/crawl.py:55-60). -/
def has_skipped_extension (url : String) : Except String Bool := do
  let parsed ← urlparseE url
  let path := lowerList parsed.path.data
  .ok (SKIP_EXTENSIONS.any fun ext => endsWithL path ext.data)

/-- The whitespace characters removed by Python `str.strip()` (the Latin-1
range; higher Unicode space code points are not modelled). -/
def pyIsSpace (c : Char) : Bool :=
  c = ' ' || c = '\t' || c = '\n' || c = '\r' || c = '\x0b' || c = '\x0c' ||
  c = '\x1c' || c = '\x1d' || c = '\x1e' || c = '\x1f' ||
  c = '\x85' || c = '\xa0'

def pyStrip (l : List Char) : List Char :=
  ((l.dropWhile pyIsSpace).reverse.dropWhile pyIsSpace).reverse

/-- `"://" in raw`. -/
def hasSchemeSep : List Char → Bool
  | [] => false
  | ':' :: '/' :: '/' :: _ => true
  | _ :: rest => hasSchemeSep rest

/-- `(path or "").rstrip("/")`. -/
def rstripSlashes (l : List Char) : List Char :=
  (l.reverse.dropWhile (fun c => c = '/')).reverse

/-- The parsing half of `normalize_url` (src/crawl.py:75-90): strip, reject
empty, parse, and re-parse with an `http://` scheme for schemeless inputs
like `example.com/path`. -/
def normParse (url : String) : Except String ParseResult := do
  let raw := String.mk (pyStrip url.data)
  if raw.data = [] then .error "url must be a non-empty string"
  else do
    let parsed ← urlparseE raw
    if parsed.netloc = "" ∧ parsed.path ≠ "" ∧ ¬ hasSchemeSep raw.data ∧
        raw.data.take 2 ≠ ['/', '/'] then
      urlparseE ("http://" ++ raw)
    else .ok parsed

/-- The assembling half of `normalize_url` (src/crawl.py:88-110): lowercase
host, drop default ports, bracket bare IPv6 hosts, strip trailing slashes,
keep the query. -/
def assembleKey (parsed : ParseResult) : Except String String := do
  match hostnameOf parsed.netloc with
  | none => .error "absolute URL required (missing hostname)"
  | some hostname0 => do
    let scheme := String.mk (lowerList parsed.scheme.data)
    let hostname := String.mk (lowerList hostname0.data)
    let port ← portOf parsed.netloc
    let defaultPort : Bool :=
      (scheme = "http" ∧ port = some 80) ∨ (scheme = "https" ∧ port = some 443)
    let portStr :=
      match port with
      | none => ""
      | some n => if defaultPort then "" else ":" ++ toString n
    let hostNeedsBrackets : Bool :=
      hostname.data.contains ':' ∧ hostname.data.head? ≠ some '[' ∧
        hostname.data.getLast? ≠ some ']'
    let host := if hostNeedsBrackets then "[" ++ hostname ++ "]" else hostname
    let path0 := rstripSlashes parsed.path.data
    let path := if path0 ≠ [] ∧ path0.head? ≠ some '/' then '/' :: path0 else path0
    let normalized := host ++ portStr ++ String.mk path
    .ok (if parsed.query ≠ "" then normalized ++ "?" ++ parsed.query else normalized)

/-- `normalize_url` (src/crawl.py:63-110). -/
def normalize_url (url : String) : Except String String :=
  normParse url >>= assembleKey

/-! ## HTML extraction (src/crawl.py:113-176)

The BeautifulSoup parser is an external collaborator; per §6 of the spec an
HTML document is abstracted to the attribute lists the extractor reads: the
`href` of each `<a>` and the `src` of each `<img>` in document order (with
`None` for a missing attribute), the joined text of the first `<h1>`, and the
first-paragraph texts. -/

structure HtmlDoc where
  anchors : List (Option String)
  imgs : List (Option String)
  h1 : Option String
  mainFirstP : Option String
  firstP : Option String

/-- `attr.get(...)` followed by Python truthiness (`if not href: continue`
skips both missing and empty attributes). -/
def truthy : Option String → Option String
  | none => none
  | some s => if s = "" then none else some s

/-- `get_urls_from_html`: resolved `href` of each anchor, in document order. -/
def get_urls_from_html (d : HtmlDoc) (base : String) : Except String (List String) :=
  (d.anchors.filterMap truthy).mapM (fun href => urljoinE base href)

/-- `get_images_from_html`: resolved `src` of each image, in document order. -/
def get_images_from_html (d : HtmlDoc) (base : String) : Except String (List String) :=
  (d.imgs.filterMap truthy).mapM (fun src => urljoinE base src)

def get_h1_from_html (d : HtmlDoc) : String := d.h1.getD ""

def get_first_paragraph_from_html (d : HtmlDoc) : String :=
  match d.mainFirstP with
  | some t => t
  | none => d.firstP.getD ""

structure PageData where
  url : String
  h1 : String
  first_paragraph : String
  outgoing_links : List String
  image_urls : List String
deriving Repr, DecidableEq

/-- The `seen`-set deduplication loop of `extract_page_data`, keeping the
first occurrence of each element. -/
def dedupKeepFirst (l : List String) : List String :=
  l.foldl (fun acc u => if acc.contains u then acc else acc ++ [u]) []

/-- `extract_page_data` (src/crawl.py:158-176): canonicalize and deduplicate
outgoing links (first-seen order); canonicalize image URLs without
deduplication. -/
def extract_page_data (d : HtmlDoc) (page_url : String) : Except String PageData := do
  let outgoingRaw ← get_urls_from_html d page_url
  let outgoingCanon ← outgoingRaw.mapM canonicalize_url
  let imagesRaw ← get_images_from_html d page_url
  let imageUrls ← imagesRaw.mapM canonicalize_url
  .ok
    { url := page_url
      h1 := get_h1_from_html d
      first_paragraph := get_first_paragraph_from_html d
      outgoing_links := dedupKeepFirst outgoingCanon
      image_urls := imageUrls }

end Crawl

namespace Fetch

/-! ## A model of `AsyncCrawler.get_html` (src/crawl.py:297-346)

`get_html` is modelled as a pure function of the per-attempt network
behaviour. `resp n` is what `self.session.get(...)` yields on attempt `n`
(a status/content-type/body triple, or a transport-level error:
`aiohttp.ClientError` / `asyncio.TimeoutError`); `stopAt n` is the value of
`self.should_stop` observed at the top of attempt `n`. Alongside the
outcome, the model records the ordered suspension/resource events of the
run: semaphore acquisition and release (entering and leaving
`async with self.semaphore`), the explicit `await resp.release()`, and each
backoff sleep (`await self._sleep_backoff(attempt)`). -/

inductive Resp where
  | status (code : Nat) (contentType : String) (body : String)
  | transportErr
deriving Repr, DecidableEq

inductive Ev where
  | semAcquire
  | respRelease
  | sleep (attempt : Nat)
  | semRelease
deriving Repr, DecidableEq

inductive Outcome where
  | ok (body : String)
  | cancelled
  | errRetryableExhausted (code : Nat)
  | errHttp (code : Nat)
  | errContentType (contentType : String)
  | errTransport
deriving Repr, DecidableEq

def RETRYABLE_STATUS : List Nat := [429, 503]

/-- `"text/html" in content_type.lower()`. -/
def containsTextHtml (ct : String) : Bool :=
  Urllib.infixOfL ("text/html".data) (Urllib.lowerList ct.data)

/-- One iteration of the retry loop of `get_html`, at `attempt`, with `fuel`
iterations remaining (`fuel = max_retries + 1 - attempt`).

The branch structure mirrors the source: a retryable status (429/503) inside
the semaphore block releases the response and sleeps *before* leaving the
semaphore block (`continue` exits the `async with` afterwards); a raised
`RuntimeError` (non-retryable status ≥ 400, unexpected content type, or
exhausted retryable status) first unwinds the `async with` blocks — releasing
the semaphore — and is then caught by the
`except (aiohttp.ClientError, asyncio.TimeoutError, RuntimeError)` clause,
which sleeps and retries while attempts remain; transport errors take the
same except-clause path. -/
def getHtmlGo (maxRetries : Nat) (resp : Nat → Resp) (stopAt : Nat → Bool) :
    Nat → Nat → Outcome × List Ev
  | _, 0 => (.errTransport, [])
  | attempt, fuel + 1 =>
    if stopAt attempt then (.cancelled, [])
    else
      match resp attempt with
      | .transportErr =>
        if attempt < maxRetries then
          let t := getHtmlGo maxRetries resp stopAt (attempt + 1) fuel
          (t.1, [.semAcquire, .semRelease, .sleep attempt] ++ t.2)
        else (.errTransport, [.semAcquire, .semRelease])
      | .status code ct body =>
        if RETRYABLE_STATUS.contains code then
          if attempt = maxRetries then
            (.errRetryableExhausted code, [.semAcquire, .semRelease])
          else
            let t := getHtmlGo maxRetries resp stopAt (attempt + 1) fuel
            (t.1, [.semAcquire, .respRelease, .sleep attempt, .semRelease] ++ t.2)
        else if 400 ≤ code then
          if attempt < maxRetries then
            let t := getHtmlGo maxRetries resp stopAt (attempt + 1) fuel
            (t.1, [.semAcquire, .semRelease, .sleep attempt] ++ t.2)
          else (.errHttp code, [.semAcquire, .semRelease])
        else if ¬ containsTextHtml ct then
          if attempt < maxRetries then
            let t := getHtmlGo maxRetries resp stopAt (attempt + 1) fuel
            (t.1, [.semAcquire, .semRelease, .sleep attempt] ++ t.2)
          else (.errContentType ct, [.semAcquire, .semRelease])
        else (.ok body, [.semAcquire, .semRelease])

/-- `get_html` as a whole: `for attempt in range(self.max_retries + 1)`. -/
def get_html_run (maxRetries : Nat) (resp : Nat → Resp) (stopAt : Nat → Bool) :
    Outcome × List Ev :=
  getHtmlGo maxRetries resp stopAt 0 (maxRetries + 1)

/-- Scan an event list tracking how many semaphore permits are held; `true`
iff some sleep event occurs while a permit is held. -/
def sleepsWhileHeldFrom (held : Nat) : List Ev → Bool
  | [] => false
  | .semAcquire :: rest => sleepsWhileHeldFrom (held + 1) rest
  | .semRelease :: rest => sleepsWhileHeldFrom (held - 1) rest
  | .sleep _ :: rest => if 0 < held then true else sleepsWhileHeldFrom held rest
  | .respRelease :: rest => sleepsWhileHeldFrom held rest

def sleepsWhileHeld (evs : List Ev) : Bool := sleepsWhileHeldFrom 0 evs

/-- Number of attempts in a run = number of semaphore acquisitions. -/
def attemptCount (evs : List Ev) : Nat :=
  evs.countP fun e => e = .semAcquire

/-- Number of backoff sleeps in a run. -/
def sleepCount (evs : List Ev) : Nat :=
  evs.countP fun e => match e with | .sleep _ => true | _ => false

end Fetch

namespace Engine

/-! ## The crawl engine as a labelled transition system

`AsyncCrawler` runs on asyncio's single-threaded event loop: code between
`await` points executes atomically, and the bodies of the
`async with self.lock` blocks contain no `await`. Each step of the
transition system is one such atomic section of `crawl_page` /
`add_page_visit` / `crawl` (src/crawl.py:262-426); interleaving of the
concurrent page tasks is arbitrary.

A task record carries the canonical fetch URL of the page and the
comparison key (`normalize_url` output) that `crawl_page` computes for it.
The model over-approximates where the claims do not need precision: tasks
may be spawned with any key/URL at any time (the real engine spawns the
root task and one task per admitted outgoing link), a finishing task may
write any extracted record, and `drop` covers every pre-admission early
exit of `crawl_page` (stop flag, filters, robots, `normalize_url` failure,
cancellation). All safety claims are proved over every interleaving, which
includes the real ones. -/

inductive Phase where
  | ready
  | admitted
  | fetching
  | done
deriving Repr, DecidableEq

structure TaskSt where
  key : String
  url : String
  phase : Phase
  cancelled : Bool
deriving Repr, DecidableEq

structure EngSt where
  pageData : List (String × Crawl.PageData)
  shouldStop : Bool
  tasks : List TaskSt
deriving Repr, DecidableEq

/-- The record inserted by `add_page_visit` to reserve a slot. -/
def placeholder : Crawl.PageData := ⟨"", "", "", [], []⟩

def keys (s : EngSt) : List String := s.pageData.map Prod.fst

/-- In-place update of the value at key `k` (a `dict` item assignment for an
existing key: order and size are unchanged). -/
def setEntry (k : String) (v : Crawl.PageData)
    (m : List (String × Crawl.PageData)) : List (String × Crawl.PageData) :=
  m.map fun kv => if kv.1 = k then (kv.1, v) else kv

/-- `self.page_data[normalized]["url"] = url` (src/crawl.py:384-385). -/
def setEntryUrl (k u : String)
    (m : List (String × Crawl.PageData)) : List (String × Crawl.PageData) :=
  m.map fun kv => if kv.1 = k then (kv.1, { kv.2 with url := u }) else kv

/-- `for task in list(self.all_tasks): task.cancel()` (src/crawl.py:277-278). -/
def cancelAll (ts : List TaskSt) : List TaskSt :=
  ts.map fun t => { t with cancelled := true }

inductive Label where
  | spawn (k u : String)
  | accept (k : String)
  | reject (k : String)
  | budgetHit (k : String)
  | fetchStart (k : String)
  | fetchFail (k : String)
  | finish (k : String) (d : Crawl.PageData)
  | drop (k : String)
deriving Repr, DecidableEq

/-- One atomic step of the engine, at budget `maxPages`.

* `spawn`: `asyncio.create_task(self._run_task(url))` — a new task enters the
  registry in its initial phase.
* `accept`: the `async with self.lock` body of `add_page_visit` when it
  returns `True`: not stopped, key absent, size below budget — the
  placeholder is inserted in the same atomic section.
* `reject`: the same body returning `False` (already stopped, or key
  present).
* `budgetHit`: the same body when the size check fails: sets `should_stop`,
  cancels every registered task, returns `False`.
* `fetchStart`: the `async with self.lock` body at src/crawl.py:384-385
  recording the fetch URL, after which `get_html` is awaited.
* `fetchFail`: `get_html` raised (fetch error or cancellation) — the task
  returns, leaving the reserved entry as it was.
* `finish`: extraction succeeded; the entry is overwritten with the
  extracted record (src/crawl.py:396-397).
* `drop`: any pre-admission early return of `crawl_page`. -/
inductive Step (maxPages : Nat) : EngSt → Label → EngSt → Prop where
  | spawn (pd : List (String × Crawl.PageData)) (stop : Bool) (ts : List TaskSt)
      (k u : String) :
      Step maxPages ⟨pd, stop, ts⟩ (.spawn k u)
        ⟨pd, stop, ts ++ [⟨k, u, .ready, false⟩]⟩
  | accept (pd : List (String × Crawl.PageData)) (ts1 ts2 : List TaskSt) (t : TaskSt)
      (hph : t.phase = .ready) (habs : ¬ t.key ∈ pd.map Prod.fst)
      (hlen : pd.length < maxPages) :
      Step maxPages ⟨pd, false, ts1 ++ t :: ts2⟩ (.accept t.key)
        ⟨pd ++ [(t.key, placeholder)], false,
          ts1 ++ { t with phase := .admitted } :: ts2⟩
  | rejectStopped (pd : List (String × Crawl.PageData)) (ts1 ts2 : List TaskSt)
      (t : TaskSt) (hph : t.phase = .ready) :
      Step maxPages ⟨pd, true, ts1 ++ t :: ts2⟩ (.reject t.key)
        ⟨pd, true, ts1 ++ { t with phase := .done } :: ts2⟩
  | rejectDup (pd : List (String × Crawl.PageData)) (ts1 ts2 : List TaskSt)
      (t : TaskSt) (hph : t.phase = .ready) (hmem : t.key ∈ pd.map Prod.fst) :
      Step maxPages ⟨pd, false, ts1 ++ t :: ts2⟩ (.reject t.key)
        ⟨pd, false, ts1 ++ { t with phase := .done } :: ts2⟩
  | budgetHit (pd : List (String × Crawl.PageData)) (ts1 ts2 : List TaskSt)
      (t : TaskSt) (hph : t.phase = .ready) (habs : ¬ t.key ∈ pd.map Prod.fst)
      (hlen : maxPages ≤ pd.length) :
      Step maxPages ⟨pd, false, ts1 ++ t :: ts2⟩ (.budgetHit t.key)
        ⟨pd, true, cancelAll (ts1 ++ { t with phase := .done } :: ts2)⟩
  | fetchStart (pd : List (String × Crawl.PageData)) (stop : Bool)
      (ts1 ts2 : List TaskSt) (t : TaskSt) (hph : t.phase = .admitted) :
      Step maxPages ⟨pd, stop, ts1 ++ t :: ts2⟩ (.fetchStart t.key)
        ⟨setEntryUrl t.key t.url pd, stop,
          ts1 ++ { t with phase := .fetching } :: ts2⟩
  | fetchFail (pd : List (String × Crawl.PageData)) (stop : Bool)
      (ts1 ts2 : List TaskSt) (t : TaskSt) (hph : t.phase = .fetching) :
      Step maxPages ⟨pd, stop, ts1 ++ t :: ts2⟩ (.fetchFail t.key)
        ⟨pd, stop, ts1 ++ { t with phase := .done } :: ts2⟩
  | finish (pd : List (String × Crawl.PageData)) (stop : Bool)
      (ts1 ts2 : List TaskSt) (t : TaskSt) (d : Crawl.PageData)
      (hph : t.phase = .fetching) :
      Step maxPages ⟨pd, stop, ts1 ++ t :: ts2⟩ (.finish t.key d)
        ⟨setEntry t.key d pd, stop, ts1 ++ { t with phase := .done } :: ts2⟩
  | dropTask (pd : List (String × Crawl.PageData)) (stop : Bool)
      (ts1 ts2 : List TaskSt) (t : TaskSt) (hph : t.phase = .ready) :
      Step maxPages ⟨pd, stop, ts1 ++ t :: ts2⟩ (.drop t.key)
        ⟨pd, stop, ts1 ++ { t with phase := .done } :: ts2⟩

/-- A crawl run: `crawl()` starts with an empty result map, a cleared stop
flag and an empty registry, then spawns the root task. -/
def init : EngSt := ⟨[], false, []⟩

/-- `Exec mp s ls s'`: from `s`, the labelled steps `ls` (in order) lead
to `s'`. -/
inductive Exec (mp : Nat) : EngSt → List Label → EngSt → Prop where
  | nil (s : EngSt) : Exec mp s [] s
  | snoc {s s' s'' : EngSt} {ls : List Label} {l : Label} :
      Exec mp s ls s' → Step mp s' l s'' → Exec mp s (ls ++ [l]) s''

def Reachable (mp : Nat) (s : EngSt) : Prop := ∃ ls, Exec mp init ls s

/-- `crawl()` returns only when the root task and all transitively spawned
tasks have completed. -/
def allDone (s : EngSt) : Bool := s.tasks.all fun t => t.phase = .done

/-- Occurrences of `add_page_visit` returning `True` for key `k`. -/
def countAdmit (k : String) (ls : List Label) : Nat :=
  ls.countP fun l => l = .accept k

/-- Occurrences of a fetch starting for key `k`. -/
def countFetchStart (k : String) (ls : List Label) : Nat :=
  ls.countP fun l => l = .fetchStart k

/-- Occurrences of a completed extraction being written for key `k`. -/
def countFinish (k : String) (ls : List Label) : Nat :=
  ls.countP fun l => match l with | .finish k' _ => k' = k | _ => false

/-- Tasks currently holding an admission for `k` but not yet fetching. -/
def admittedCount (k : String) (s : EngSt) : Nat :=
  s.tasks.countP fun t => t.key = k ∧ t.phase = .admitted

/-- Tasks currently fetching `k`. -/
def fetchingCount (k : String) (s : EngSt) : Nat :=
  s.tasks.countP fun t => t.key = k ∧ t.phase = .fetching

end Engine

/-!
# Theorems

Supporting lemmas first, then one theorem per claim (with witnesses and
counterexamples where required).
-/

instance {ε α : Type} [DecidableEq ε] [DecidableEq α] : DecidableEq (Except ε α) := fun a b =>
  match a, b with
  | .ok x, .ok y => if h : x = y then .isTrue (by rw [h]) else .isFalse (by simp [h])
  | .error x, .error y => if h : x = y then .isTrue (by rw [h]) else .isFalse (by simp [h])
  | .ok _, .error _ => .isFalse (by simp)
  | .error _, .ok _ => .isFalse (by simp)

namespace Urllib

/-- Decoding the UTF-8 encoding of a character consumes exactly that
character. -/
theorem utf8DecodeAux_encodeChar (c : Char) (rest : List Nat) :
    utf8DecodeAux none (utf8EncodeChar c ++ rest) = c :: utf8DecodeAux none rest := by
  have hv : c.toNat.isValidChar := c.valid
  have hofn : Char.ofNat c.toNat = c := Char.ofNat_toNat c
  have hvn : c.toNat < 0xD800 ∨ (0xDFFF < c.toNat ∧ c.toNat < 0x110000) := hv
  set n := c.toNat with hn
  by_cases h1 : n < 0x80
  · simp only [utf8EncodeChar, ← hn, if_pos h1, List.cons_append, List.nil_append,
      utf8DecodeAux, hofn]
  · by_cases h2 : n < 0x800
    · have hb : ¬ (0xC0 + n / 64 < 0x80) := by omega
      have hlead : (0xC2 ≤ 0xC0 + n / 64 && 0xC0 + n / 64 ≤ 0xDF) = true := by
        simp only [Bool.and_eq_true, decide_eq_true_eq]
        omega
      have hcont : cont1Ok (0xC0 + n / 64) (0x80 + n % 64) = true := by
        simp only [cont1Ok, isCont]
        rw [if_neg (by omega : ¬ 0xC0 + n / 64 = 0xE0),
          if_neg (by omega : ¬ 0xC0 + n / 64 = 0xED),
          if_neg (by omega : ¬ 0xC0 + n / 64 = 0xF0),
          if_neg (by omega : ¬ 0xC0 + n / 64 = 0xF4)]
        simp only [Bool.and_eq_true, decide_eq_true_eq]
        omega
      have hcnt : 0 + 1 = contCount (0xC0 + n / 64) := by
        simp only [contCount]
        rw [if_pos (by omega : 0xC0 + n / 64 ≤ 0xDF)]
      have hval : (0xC0 + n / 64 - 0xC0) * 64 + (0x80 + n % 64 - 0x80) = n := by omega
      simp only [utf8EncodeChar, ← hn, if_neg h1, if_pos h2, List.cons_append,
        List.nil_append, utf8DecodeAux, if_neg hb, leadInfo, hlead, if_pos,
        hcont, if_true, ← hcnt, if_pos rfl, hval, hofn]
    · by_cases h3 : n < 0x10000
      · have hb : ¬ (0xE0 + n / 4096 < 0x80) := by omega
        have hl1 : ¬ (0xC2 ≤ 0xE0 + n / 4096 && 0xE0 + n / 4096 ≤ 0xDF) = true := by
          simp only [Bool.and_eq_true, decide_eq_true_eq]
          omega
        have hlead : (0xE0 ≤ 0xE0 + n / 4096 && 0xE0 + n / 4096 ≤ 0xEF) = true := by
          simp only [Bool.and_eq_true, decide_eq_true_eq]
          omega
        have hcont : cont1Ok (0xE0 + n / 4096) (0x80 + n / 64 % 64) = true := by
          simp only [cont1Ok, isCont]
          by_cases he : 0xE0 + n / 4096 = 0xE0
          · rw [if_pos he]
            simp only [Bool.and_eq_true, decide_eq_true_eq]
            omega
          · rw [if_neg he]
            by_cases hd : 0xE0 + n / 4096 = 0xED
            · rw [if_pos hd]
              simp only [Bool.and_eq_true, decide_eq_true_eq]
              omega
            · rw [if_neg hd, if_neg (by omega : ¬ 0xE0 + n / 4096 = 0xF0),
                if_neg (by omega : ¬ 0xE0 + n / 4096 = 0xF4)]
              simp only [Bool.and_eq_true, decide_eq_true_eq]
              omega
        have hcont2 : isCont (0x80 + n % 64) = true := by
          simp only [isCont, Bool.and_eq_true, decide_eq_true_eq]
          omega
        have hcc : contCount (0xE0 + n / 4096) = 2 := by
          simp only [contCount]
          rw [if_neg (by omega : ¬ 0xE0 + n / 4096 ≤ 0xDF),
            if_pos (by omega : 0xE0 + n / 4096 ≤ 0xEF)]
        have hval : ((0xE0 + n / 4096 - 0xE0) * 64 + (0x80 + n / 64 % 64 - 0x80)) * 64 +
            (0x80 + n % 64 - 0x80) = n := by omega
        simp only [utf8EncodeChar, ← hn, if_neg h1, if_neg h2, if_pos h3, List.cons_append,
          List.nil_append, utf8DecodeAux, if_neg hb, leadInfo, hl1, if_false, hlead, if_pos,
          if_true, hcont, hcont2, hcc, Bool.false_eq_true]
        rw [if_neg (by omega : ¬ (0:Nat) + 1 = 2)]
        rw [if_neg (by omega : ¬ (0:Nat) + 1 = 0)]
        simp only [if_pos rfl, if_true]
        rw [hval, hofn]
      · have hb : ¬ (0xF0 + n / 0x40000 < 0x80) := by omega
        have hn4 : n < 0x110000 := by omega
        have hl1 : ¬ (0xC2 ≤ 0xF0 + n / 0x40000 && 0xF0 + n / 0x40000 ≤ 0xDF) = true := by
          simp only [Bool.and_eq_true, decide_eq_true_eq]
          omega
        have hl2 : ¬ (0xE0 ≤ 0xF0 + n / 0x40000 && 0xF0 + n / 0x40000 ≤ 0xEF) = true := by
          simp only [Bool.and_eq_true, decide_eq_true_eq]
          omega
        have hlead : (0xF0 ≤ 0xF0 + n / 0x40000 && 0xF0 + n / 0x40000 ≤ 0xF4) = true := by
          simp only [Bool.and_eq_true, decide_eq_true_eq]
          omega
        have hcont : cont1Ok (0xF0 + n / 0x40000) (0x80 + n / 4096 % 64) = true := by
          simp only [cont1Ok, isCont]
          rw [if_neg (by omega : ¬ 0xF0 + n / 0x40000 = 0xE0),
            if_neg (by omega : ¬ 0xF0 + n / 0x40000 = 0xED)]
          by_cases hf : 0xF0 + n / 0x40000 = 0xF0
          · rw [if_pos hf]
            simp only [Bool.and_eq_true, decide_eq_true_eq]
            omega
          · rw [if_neg hf]
            by_cases hg : 0xF0 + n / 0x40000 = 0xF4
            · rw [if_pos hg]
              simp only [Bool.and_eq_true, decide_eq_true_eq]
              omega
            · rw [if_neg hg]
              simp only [Bool.and_eq_true, decide_eq_true_eq]
              omega
        have hcont2 : isCont (0x80 + n / 64 % 64) = true := by
          simp only [isCont, Bool.and_eq_true, decide_eq_true_eq]
          omega
        have hcont3 : isCont (0x80 + n % 64) = true := by
          simp only [isCont, Bool.and_eq_true, decide_eq_true_eq]
          omega
        have hcc : contCount (0xF0 + n / 0x40000) = 3 := by
          simp only [contCount]
          rw [if_neg (by omega : ¬ 0xF0 + n / 0x40000 ≤ 0xDF),
            if_neg (by omega : ¬ 0xF0 + n / 0x40000 ≤ 0xEF)]
        have hval : (((0xF0 + n / 0x40000 - 0xF0) * 64 + (0x80 + n / 4096 % 64 - 0x80)) * 64 +
            (0x80 + n / 64 % 64 - 0x80)) * 64 + (0x80 + n % 64 - 0x80) = n := by omega
        simp only [utf8EncodeChar, ← hn, if_neg h1, if_neg h2, if_neg h3, List.cons_append,
          List.nil_append, utf8DecodeAux, if_neg hb, leadInfo, hl1, hl2, if_false, hlead,
          if_pos, if_true, hcont, hcont2, hcont3, hcc, Bool.false_eq_true]
        rw [if_neg (by omega : ¬ (0:Nat) + 1 = 3)]
        rw [if_neg (by omega : ¬ (0:Nat) + 1 = 0)]
        simp only [if_pos rfl, if_true]
        rw [if_neg (by omega : ¬ (1:Nat) + 1 = 3)]
        rw [if_neg (by omega : ¬ (1:Nat) + 1 = 0)]
        simp only [if_pos rfl, if_true]
        rw [hval, hofn]

/-- Decoding the UTF-8 encoding of a string yields the string back. -/
theorem utf8DecodeReplace_encode (l : List Char) :
    utf8DecodeReplace (utf8Encode l) = l := by
  induction l with
  | nil => rfl
  | cons c t ih =>
    show utf8DecodeAux none (utf8EncodeChar c ++ utf8Encode t) = c :: t
    rw [utf8DecodeAux_encodeChar]
    exact congrArg (c :: ·) ih

end Urllib

namespace Urllib

theorem alwaysSafe_ascii {c : Char} (h : alwaysSafe c = true) : isAsciiCh c = true := by
  simp only [alwaysSafe, isAsciiAlphaNum, isAsciiAlpha, isAsciiDigit, Bool.or_eq_true,
    Bool.and_eq_true, decide_eq_true_eq] at h
  simp only [isAsciiCh, decide_eq_true_eq]
  rcases h with h | h
  · rcases h with h | h
    · rcases h with h | h
      · rcases h with h | h
        · rcases h with h | h
          · rcases h with h | h
            · have h2' : c.toNat ≤ 122 := h.2
              omega
            · have h2' : c.toNat ≤ 90 := h.2
              omega
          · have h2' : c.toNat ≤ 57 := h.2
            omega
        · subst h
          decide
      · subst h
        decide
    · subst h
      decide
  · subst h
    decide

theorem mem_utf8EncodeChar_lt {c : Char} : ∀ b ∈ utf8EncodeChar c, b < 256 := by
  intro b hb
  have hvc : c.toNat.isValidChar := c.valid
  have hv : c.toNat < 0x110000 := by
    rcases hvc with h | ⟨_, h⟩
    · omega
    · exact h
  simp only [utf8EncodeChar] at hb
  split at hb
  · simp only [List.mem_singleton] at hb
    omega
  · split at hb
    · simp only [List.mem_cons, List.not_mem_nil, or_false] at hb
      rcases hb with hb | hb
      all_goals omega
    · split at hb
      · simp only [List.mem_cons, List.not_mem_nil, or_false] at hb
        rcases hb with hb | hb | hb
        all_goals omega
      · simp only [List.mem_cons, List.not_mem_nil, or_false] at hb
        rcases hb with hb | hb | hb | hb
        all_goals omega

theorem hexCh_facts (n : Nat) (h : n < 16) :
    hexVal? (hexCh n) = some n ∧ plusToSpace (hexCh n) = hexCh n ∧
      ¬ hexCh n = '&' ∧ ¬ hexCh n = '=' ∧ isAsciiCh (hexCh n) = true ∧
      ¬ hexCh n = '%' := by
  interval_cases n
  all_goals decide

theorem unquoteToBytes_byteEscape (b : Nat) (hb : b < 256) (rest : List Char) :
    unquoteToBytes (List.map plusToSpace (byteEscape b) ++ rest) =
      b :: unquoteToBytes rest := by
  have h1 := hexCh_facts (b / 16) (by omega)
  have h2 := hexCh_facts (b % 16) (by omega)
  simp only [byteEscape, List.map_cons, List.map_nil, List.cons_append, List.nil_append,
    h1.2.1, h2.2.1]
  show unquoteToBytes ('%' :: hexCh (b / 16) :: hexCh (b % 16) :: rest) = _
  rw [unquoteToBytes]
  simp only [if_pos rfl, h1.1, h2.1, if_true]
  have hval : b / 16 * 16 + b % 16 = b := by omega
  simp [hval]

end Urllib

namespace Urllib

/-- Characters of `quote_plus` output (after the `+`→space preprocessing of
`parse_qsl`) decode back to the original character's UTF-8 bytes. -/
theorem unquoteToBytes_quotePlusChar (c : Char) (rest : List Char) :
    unquoteToBytes (List.map plusToSpace (quotePlusChar c) ++ rest) =
      utf8EncodeChar c ++ unquoteToBytes rest := by
  by_cases hs : alwaysSafe c = true
  · have hns : ¬ c = '%' := by
      intro he
      subst he
      exact absurd hs (by decide)
    have hnp : ¬ c = '+' := by
      intro he
      subst he
      exact absurd hs (by decide)
    simp only [quotePlusChar, if_pos hs, List.map_cons, List.map_nil, List.cons_append,
      List.nil_append, plusToSpace, if_neg hnp]
    rw [unquoteToBytes.eq_def]
    simp only [if_neg hns]
  · by_cases hsp : c = ' '
    · subst hsp
      simp only [quotePlusChar, if_neg hs, if_pos rfl, List.map_cons, List.map_nil,
        List.cons_append, List.nil_append, plusToSpace, if_pos rfl]
      rw [unquoteToBytes.eq_def]
      rfl
    · simp only [quotePlusChar, if_neg hs, if_neg hsp]
      generalize hbs : utf8EncodeChar c = bs
      have hlt : ∀ b ∈ bs, b < 256 := by
        rw [← hbs]
        exact mem_utf8EncodeChar_lt
      clear hbs hs hsp
      induction bs with
      | nil => simp
      | cons b bt ih =>
        have hb : b < 256 := hlt b (List.mem_cons_self b bt)
        simp only [List.flatMap_cons, List.map_append, List.append_assoc]
        rw [unquoteToBytes_byteEscape b hb,
          ih (fun x hx => hlt x (List.mem_cons_of_mem b hx))]
        simp

end Urllib

namespace Urllib

/-- Every character emitted by `quote_plus` (after `+`→space) is ASCII. -/
theorem mem_map_plusToSpace_quotePlusChar_ascii {c x : Char}
    (hx : x ∈ List.map plusToSpace (quotePlusChar c)) : isAsciiCh x = true := by
  simp only [quotePlusChar] at hx
  by_cases hs : alwaysSafe c = true
  · rw [if_pos hs] at hx
    simp only [List.map_cons, List.map_nil, List.mem_singleton] at hx
    subst hx
    have hpts : plusToSpace c = c := by
      simp only [plusToSpace]
      rw [if_neg]
      intro he
      subst he
      exact absurd hs (by decide)
    rw [hpts]
    exact alwaysSafe_ascii hs
  · rw [if_neg hs] at hx
    by_cases hsp : c = ' '
    · rw [if_pos hsp] at hx
      simp only [List.map_cons, List.map_nil, List.mem_singleton] at hx
      subst hx
      decide
    · rw [if_neg hsp] at hx
      simp only [List.mem_map] at hx
      obtain ⟨y, hy, hxy⟩ := hx
      simp only [List.mem_flatMap] at hy
      obtain ⟨b, hb, hyb⟩ := hy
      have hblt : b < 256 := mem_utf8EncodeChar_lt b hb
      simp only [byteEscape, List.mem_cons, List.not_mem_nil, or_false] at hyb
      rcases hyb with h | h | h
      · subst h
        subst hxy
        decide
      · subst h
        have hf := hexCh_facts (b / 16) (by omega)
        rw [← hxy, hf.2.1]
        exact hf.2.2.2.2.1
      · subst h
        have hf := hexCh_facts (b % 16) (by omega)
        rw [← hxy, hf.2.1]
        exact hf.2.2.2.2.1

/-- `quote_plus` output never contains a raw `&` or `=`. -/
theorem mem_quotePlusChar_ne {c x : Char} (hx : x ∈ quotePlusChar c) :
    ¬ x = '&' ∧ ¬ x = '=' := by
  simp only [quotePlusChar] at hx
  by_cases hs : alwaysSafe c = true
  · rw [if_pos hs] at hx
    simp only [List.mem_singleton] at hx
    subst hx
    constructor
    · intro he
      subst he
      exact absurd hs (by decide)
    · intro he
      subst he
      exact absurd hs (by decide)
  · rw [if_neg hs] at hx
    by_cases hsp : c = ' '
    · rw [if_pos hsp] at hx
      simp only [List.mem_singleton] at hx
      subst hx
      exact ⟨by decide, by decide⟩
    · rw [if_neg hsp] at hx
      simp only [List.mem_flatMap] at hx
      obtain ⟨b, hb, hyb⟩ := hx
      have hblt : b < 256 := mem_utf8EncodeChar_lt b hb
      simp only [byteEscape, List.mem_cons, List.not_mem_nil, or_false] at hyb
      rcases hyb with h | h | h
      · subst h
        exact ⟨by decide, by decide⟩
      · subst h
        have hf := hexCh_facts (b / 16) (by omega)
        exact ⟨hf.2.2.1, hf.2.2.2.1⟩
      · subst h
        have hf := hexCh_facts (b % 16) (by omega)
        exact ⟨hf.2.2.1, hf.2.2.2.1⟩

/-- On an all-ASCII input, `unquote` decodes the whole input as one run. -/
theorem pyUnquoteAux_allAscii (l : List Char) (hall : ∀ x ∈ l, isAsciiCh x = true) :
    ∀ run, pyUnquoteAux run l = utf8DecodeReplace (unquoteToBytes (run.reverse ++ l)) := by
  induction l with
  | nil =>
    intro run
    simp [pyUnquoteAux]
  | cons c t ih =>
    intro run
    rw [pyUnquoteAux]
    rw [if_pos (hall c (List.mem_cons_self c t))]
    rw [ih (fun x hx => hall x (List.mem_cons_of_mem c hx)) (c :: run)]
    simp [List.reverse_cons, List.append_assoc]

/-- Percent-decoding the `quote_plus` encoding of a string recovers its UTF-8
bytes. -/
theorem unquoteToBytes_quotePlusList (l : List Char) :
    unquoteToBytes (List.map plusToSpace (quotePlusList l)) = utf8Encode l := by
  induction l with
  | nil => rfl
  | cons c t iht =>
    show unquoteToBytes (List.map plusToSpace (quotePlusChar c ++ quotePlusList t)) = _
    rw [List.map_append, unquoteToBytes_quotePlusChar, iht]
    rfl

/-- `unquote_plus` is a left inverse of `quote_plus`. -/
theorem unqPlus_quotePlusList (l : List Char) : unqPlus (quotePlusList l) = l := by
  have hall : ∀ x ∈ List.map plusToSpace (quotePlusList l), isAsciiCh x = true := by
    intro x hx
    simp only [quotePlusList, List.map_flatMap] at hx
    simp only [List.mem_flatMap] at hx
    obtain ⟨c, _, hxc⟩ := hx
    exact mem_map_plusToSpace_quotePlusChar_ascii hxc
  show pyUnquoteAux [] (List.map plusToSpace (quotePlusList l)) = l
  rw [pyUnquoteAux_allAscii _ hall []]
  simp only [List.reverse_nil, List.nil_append]
  rw [unquoteToBytes_quotePlusList, utf8DecodeReplace_encode]

end Urllib

namespace Urllib

theorem mem_quotePlusList_ne {x : Char} {l : List Char} (hx : x ∈ quotePlusList l) :
    ¬ x = '&' ∧ ¬ x = '=' := by
  simp only [quotePlusList, List.mem_flatMap] at hx
  obtain ⟨c, _, hc⟩ := hx
  exact mem_quotePlusChar_ne hc

theorem splitFirst_append_cons (c : Char) (a b : List Char)
    (ha : ∀ x ∈ a, ¬ x = c) : splitFirst c (a ++ c :: b) = (a, some b) := by
  induction a with
  | nil => simp [splitFirst]
  | cons y t ih =>
    have hy : ¬ y = c := ha y (List.mem_cons_self y t)
    simp only [List.cons_append, splitFirst, if_neg hy, List.append_eq]
    rw [ih (fun x hx => ha x (List.mem_cons_of_mem y hx))]

theorem splitOnCh_not_mem (c : Char) (p : List Char) (hp : ∀ x ∈ p, ¬ x = c) :
    splitOnCh c p = [p] := by
  induction p with
  | nil => rfl
  | cons y t ih =>
    have hy : ¬ y = c := hp y (List.mem_cons_self y t)
    simp only [splitOnCh, if_neg hy]
    rw [ih (fun x hx => hp x (List.mem_cons_of_mem y hx))]

theorem splitOnCh_append_cons (c : Char) (p rest : List Char)
    (hp : ∀ x ∈ p, ¬ x = c) :
    splitOnCh c (p ++ c :: rest) = p :: splitOnCh c rest := by
  induction p with
  | nil => simp [splitOnCh]
  | cons y t ih =>
    have hy : ¬ y = c := hp y (List.mem_cons_self y t)
    have ih2 := ih (fun x hx => hp x (List.mem_cons_of_mem y hx))
    simp only [List.cons_append, splitOnCh, if_neg hy, List.append_eq, ih2]

theorem splitOnCh_joinCh (c : Char) (pieces : List (List Char))
    (hne : pieces ≠ []) (hp : ∀ p ∈ pieces, ∀ x ∈ p, ¬ x = c) :
    splitOnCh c (joinCh c pieces) = pieces := by
  induction pieces with
  | nil => exact absurd rfl hne
  | cons p rest ih =>
    cases rest with
    | nil =>
      show splitOnCh c p = [p]
      exact splitOnCh_not_mem c p (hp p (List.mem_cons_self p []))
    | cons q rest2 =>
      show splitOnCh c (p ++ c :: joinCh c (q :: rest2)) = _
      rw [splitOnCh_append_cons c p _ (hp p (List.mem_cons_self p _))]
      rw [ih (by simp) (fun r hr x hx => hp r (List.mem_cons_of_mem p hr) x hx)]

end Urllib

namespace Urllib

/-- One encoded `k=v` token is decoded by `parse_qsl`'s per-token logic back
to the original pair. -/
theorem parseQsl_token (k v : String) :
    (if (quotePlusList k.data ++ '=' :: quotePlusList v.data) = [] then
        (none : Option (String × String))
      else
        match splitFirstEq (quotePlusList k.data ++ '=' :: quotePlusList v.data) with
        | some (n, w) => some (String.mk (unqPlus n), String.mk (unqPlus w))
        | none =>
          some (String.mk (unqPlus (quotePlusList k.data ++ '=' :: quotePlusList v.data)), "")) =
      some (k, v) := by
  rw [if_neg (by simp)]
  have hsp : splitFirstEq (quotePlusList k.data ++ '=' :: quotePlusList v.data) =
      some (quotePlusList k.data, quotePlusList v.data) := by
    simp only [splitFirstEq,
      splitFirst_append_cons '=' _ _ (fun x hx => (mem_quotePlusList_ne hx).2)]
  rw [hsp]
  simp only [unqPlus_quotePlusList]

/-- `parse_qsl(urlencode(pairs, doseq=True), keep_blank_values=True)` returns
exactly the pairs, in order. -/
theorem parseQsl_urlencodePairs (prs : List (String × String)) :
    parseQsl (urlencodePairs prs) = prs := by
  cases prs with
  | nil => rfl
  | cons kv0 rest =>
    have hpieces : ∀ p ∈ (kv0 :: rest).map
        (fun kv : String × String => quotePlusList kv.1.data ++ '=' :: quotePlusList kv.2.data),
        ∀ x ∈ p, ¬ x = '&' := by
      intro p hp x hx
      simp only [List.mem_map] at hp
      obtain ⟨kv, _, hkv⟩ := hp
      rw [← hkv] at hx
      simp only [List.mem_append, List.mem_cons] at hx
      rcases hx with h | h | h
      · exact (mem_quotePlusList_ne h).1
      · subst h
        decide
      · exact (mem_quotePlusList_ne h).1
    have hjoin : (urlencodePairs (kv0 :: rest)).data =
        joinCh '&' ((kv0 :: rest).map
          (fun kv : String × String => quotePlusList kv.1.data ++ '=' :: quotePlusList kv.2.data)) := rfl
    have hne : (urlencodePairs (kv0 :: rest)).data ≠ [] := by
      rw [hjoin]
      cases rest with
      | nil => simp [joinCh]
      | cons q r2 => simp [joinCh]
    rw [parseQsl.eq_def]
    rw [if_neg hne]
    rw [hjoin, splitOnCh_joinCh '&' _ (by simp) hpieces]
    rw [List.filterMap_map]
    have hmap : ∀ (l : List (String × String)),
        List.filterMap
          ((fun nv => if nv = [] then none
             else
               match splitFirstEq nv with
               | some (n, w) => some (String.mk (unqPlus n), String.mk (unqPlus w))
               | none => some (String.mk (unqPlus nv), "")) ∘
            fun kv : String × String => quotePlusList kv.1.data ++ '=' :: quotePlusList kv.2.data)
          l = l := by
      intro l
      induction l with
      | nil => rfl
      | cons kv t ih =>
        rw [List.filterMap_cons]
        simp only [Function.comp_apply]
        rw [parseQsl_token kv.1 kv.2, ih]
    exact hmap (kv0 :: rest)

end Urllib

/-- C8: `canonicalize_url` removes the fragment and every `utm_*`-keyed query
parameter (matched case-insensitively) while preserving scheme, netloc
(host and port), path and params, and the relative order of the remaining
query parameters: the output is reassembled from the input's own parse
components with an empty fragment, and its query string parses back to
exactly the non-`utm_` pairs in their original order. Concretely,
`canonicalize_url "https://x.com/p?a=1&utm_source=y&b=2#frag" =
"https://x.com/p?a=1&b=2"`. -/
theorem C8_canonicalize_strips_utm_and_fragment :
    Crawl.canonicalize_url "https://x.com/p?a=1&utm_source=y&b=2#frag" =
      .ok "https://x.com/p?a=1&b=2" ∧
    ∀ (u : String) (p : Urllib.ParseResult), Urllib.urlparseE u = .ok p →
      Crawl.canonicalize_url u = .ok (Urllib.urlunparse
        ⟨p.scheme, p.netloc, p.path, p.params,
          Urllib.urlencodePairs
            ((Urllib.parseQsl p.query).filter fun kv => !Crawl.isUtmKey kv.1), ""⟩) ∧
      Urllib.parseQsl (Urllib.urlencodePairs
          ((Urllib.parseQsl p.query).filter fun kv => !Crawl.isUtmKey kv.1)) =
        (Urllib.parseQsl p.query).filter fun kv => !Crawl.isUtmKey kv.1 := by
  constructor
  · decide
  · intro u p hp
    constructor
    · simp only [Crawl.canonicalize_url, hp]
      rfl
    · exact Urllib.parseQsl_urlencodePairs _

/-- C8 witness at a concrete input. -/
theorem C8_witness :
    Urllib.urlparseE "https://x.com/p?a=1&utm_source=y&b=2#frag" =
      .ok ⟨"https", "x.com", "/p", "", "a=1&utm_source=y&b=2", "frag"⟩ ∧
    (Crawl.canonicalize_url "https://x.com/p?a=1&utm_source=y&b=2#frag" =
      .ok (Urllib.urlunparse
        ⟨"https", "x.com", "/p", "",
          Urllib.urlencodePairs
            ((Urllib.parseQsl "a=1&utm_source=y&b=2").filter fun kv => !Crawl.isUtmKey kv.1),
          ""⟩) ∧
      Urllib.parseQsl (Urllib.urlencodePairs
          ((Urllib.parseQsl "a=1&utm_source=y&b=2").filter fun kv => !Crawl.isUtmKey kv.1)) =
        (Urllib.parseQsl "a=1&utm_source=y&b=2").filter fun kv => !Crawl.isUtmKey kv.1) :=
  ⟨by decide,
    C8_canonicalize_strips_utm_and_fragment.2 "https://x.com/p?a=1&utm_source=y&b=2#frag"
      ⟨"https", "x.com", "/p", "", "a=1&utm_source=y&b=2", "frag"⟩ (by decide)⟩

/-- C9 counterexample: `canonicalize_url` is not idempotent on every input it
succeeds on. For `"////"` it returns `"//"`, but applied to `"//"` it
returns `""`. -/
theorem C9_counterexample :
    Crawl.canonicalize_url "////" = .ok "//" ∧
    Crawl.canonicalize_url "//" = .ok "" ∧
    ("" : String) ≠ "//" := by
  refine ⟨by decide, by decide, by decide⟩

/-- C9 (amended): `canonicalize_url` is idempotent on every URL whose
canonical form re-parses to the same components it was assembled from —
re-running it changes nothing, because the rebuilt query round-trips
through `parse_qsl` and the `utm_*` filter is idempotent. (The
counterexample shows the unconditional claim fails when reassembly changes
how the URL re-parses, e.g. `"////"` → `"//"` → `""`.) -/
theorem C9_canonicalize_idempotent_when_reparse_stable
    (u out : String) (p : Urllib.ParseResult)
    (hp : Urllib.urlparseE u = .ok p)
    (hout : Crawl.canonicalize_url u = .ok out)
    (hre : Urllib.urlparseE out = .ok
      ⟨p.scheme, p.netloc, p.path, p.params,
        Urllib.urlencodePairs
          ((Urllib.parseQsl p.query).filter fun kv => !Crawl.isUtmKey kv.1), ""⟩) :
    Crawl.canonicalize_url out = .ok out := by
  have hcan : Crawl.canonicalize_url u = .ok (Urllib.urlunparse
      ⟨p.scheme, p.netloc, p.path, p.params,
        Urllib.urlencodePairs
          ((Urllib.parseQsl p.query).filter fun kv => !Crawl.isUtmKey kv.1), ""⟩) := by
    simp only [Crawl.canonicalize_url, hp]
    rfl
  have hform : out = Urllib.urlunparse
      ⟨p.scheme, p.netloc, p.path, p.params,
        Urllib.urlencodePairs
          ((Urllib.parseQsl p.query).filter fun kv => !Crawl.isUtmKey kv.1), ""⟩ :=
    (Except.ok.inj (hout.symm.trans hcan))
  have hstep : Crawl.canonicalize_url out = .ok (Urllib.urlunparse
      ⟨p.scheme, p.netloc, p.path, p.params,
        Urllib.urlencodePairs
          ((Urllib.parseQsl (Urllib.urlencodePairs
              ((Urllib.parseQsl p.query).filter fun kv => !Crawl.isUtmKey kv.1))).filter
            fun kv => !Crawl.isUtmKey kv.1), ""⟩) := by
    simp only [Crawl.canonicalize_url, hre]
    rfl
  rw [hstep, Urllib.parseQsl_urlencodePairs, List.filter_filter]
  simp only [Bool.and_self]
  rw [← hform]

/-- C9 witness: a concrete input on which the amended idempotence applies. -/
theorem C9_witness :
    Urllib.urlparseE "https://x.com/p?b=2&utm_s=1" =
      .ok ⟨"https", "x.com", "/p", "", "b=2&utm_s=1", ""⟩ ∧
    Crawl.canonicalize_url "https://x.com/p?b=2&utm_s=1" = .ok "https://x.com/p?b=2" ∧
    Urllib.urlparseE "https://x.com/p?b=2" = .ok
      ⟨"https", "x.com", "/p", "",
        Urllib.urlencodePairs
          ((Urllib.parseQsl "b=2&utm_s=1").filter fun kv => !Crawl.isUtmKey kv.1), ""⟩ ∧
    Crawl.canonicalize_url "https://x.com/p?b=2" = .ok "https://x.com/p?b=2" :=
  ⟨by decide, by decide, by decide,
    C9_canonicalize_idempotent_when_reparse_stable "https://x.com/p?b=2&utm_s=1"
      "https://x.com/p?b=2" ⟨"https", "x.com", "/p", "", "b=2&utm_s=1", ""⟩
      (by decide) (by decide) (by decide)⟩

namespace Crawl

/-- Evaluation of `assembleKey` when the host exists and the port is absent or
is the default for the URL's own scheme: the key is the lowercased host
followed by the slash-stripped path and the unchanged query, with no port. -/
theorem assembleKey_eval (p : Urllib.ParseResult) (h : String) (port : Option Nat)
    (hhost : Urllib.hostnameOf p.netloc = some h)
    (hport : Urllib.portOf p.netloc = .ok port)
    (hdef : port = none ∨
      (p.scheme = "http" ∧ port = some 80) ∨ (p.scheme = "https" ∧ port = some 443)) :
    assembleKey p = .ok
      (let hostname := String.mk (Urllib.lowerList h.data)
       let hostNeedsBrackets : Bool :=
         hostname.data.contains ':' ∧ hostname.data.head? ≠ some '[' ∧
           hostname.data.getLast? ≠ some ']'
       let host := if hostNeedsBrackets then "[" ++ hostname ++ "]" else hostname
       let path0 := rstripSlashes p.path.data
       let path := if path0 ≠ [] ∧ path0.head? ≠ some '/' then '/' :: path0 else path0
       let normalized := host ++ "" ++ String.mk path
       if p.query ≠ "" then normalized ++ "?" ++ p.query else normalized) := by
  rcases hdef with hd | ⟨hs, hd⟩ | ⟨hs, hd⟩
  · subst hd
    simp only [assembleKey, hhost, hport]
    rfl
  · subst hd
    simp only [assembleKey, hhost, hport, hs]
    rfl
  · subst hd
    simp only [assembleKey, hhost, hport, hs]
    rfl

end Crawl

/-- C7: the comparison key is invariant under scheme, default port (for the
URL's own scheme), fragment, and trailing slashes on the path: any two
absolute URLs that parse to the same hostname and query, whose paths agree
after stripping trailing slashes, and whose ports are absent or default,
get the same key. The key lowercases the hostname and preserves path and
query case: `normalize_url "https://x.com/a/" = normalize_url
"http://x.com/a" = "x.com/a"` and
`normalize_url "https://EXAMPLE.com/Path?x=1" = "example.com/Path?x=1"`. -/
theorem C7_normalize_url_comparison_key :
    (∀ (u1 u2 : String) (p1 p2 : Urllib.ParseResult) (h : String)
        (port1 port2 : Option Nat),
      Crawl.normParse u1 = .ok p1 → Crawl.normParse u2 = .ok p2 →
      Urllib.hostnameOf p1.netloc = some h → Urllib.hostnameOf p2.netloc = some h →
      Urllib.portOf p1.netloc = .ok port1 → Urllib.portOf p2.netloc = .ok port2 →
      (port1 = none ∨ (p1.scheme = "http" ∧ port1 = some 80) ∨
        (p1.scheme = "https" ∧ port1 = some 443)) →
      (port2 = none ∨ (p2.scheme = "http" ∧ port2 = some 80) ∨
        (p2.scheme = "https" ∧ port2 = some 443)) →
      Crawl.rstripSlashes p1.path.data = Crawl.rstripSlashes p2.path.data →
      p1.query = p2.query →
      Crawl.normalize_url u1 = Crawl.normalize_url u2 ∧
        ∃ k, Crawl.normalize_url u1 = .ok k) ∧
    Crawl.normalize_url "https://x.com/a/" = .ok "x.com/a" ∧
    Crawl.normalize_url "http://x.com/a" = .ok "x.com/a" ∧
    Crawl.normalize_url "https://EXAMPLE.com/Path?x=1" = .ok "example.com/Path?x=1" := by
  refine ⟨?_, by decide, by decide, by decide⟩
  intro u1 u2 p1 p2 h port1 port2 hp1 hp2 hh1 hh2 hpo1 hpo2 hd1 hd2 hpath hq
  have e1 : Crawl.normalize_url u1 = Crawl.assembleKey p1 := by
    simp only [Crawl.normalize_url, hp1]
    rfl
  have e2 : Crawl.normalize_url u2 = Crawl.assembleKey p2 := by
    simp only [Crawl.normalize_url, hp2]
    rfl
  rw [e1, e2, Crawl.assembleKey_eval p1 h port1 hh1 hpo1 hd1,
    Crawl.assembleKey_eval p2 h port2 hh2 hpo2 hd2, hpath, hq]
  exact ⟨rfl, _, rfl⟩

/-- C7 witness at the claim's concrete variant pair. -/
theorem C7_witness :
    Crawl.normParse "https://x.com/a/" = .ok ⟨"https", "x.com", "/a/", "", "", ""⟩ ∧
    Crawl.normParse "http://x.com/a" = .ok ⟨"http", "x.com", "/a", "", "", ""⟩ ∧
    Urllib.hostnameOf "x.com" = some "x.com" ∧
    Urllib.portOf "x.com" = .ok none ∧
    Crawl.rstripSlashes ("/a/").data = Crawl.rstripSlashes ("/a").data ∧
    (Crawl.normalize_url "https://x.com/a/" = Crawl.normalize_url "http://x.com/a" ∧
      ∃ k, Crawl.normalize_url "https://x.com/a/" = .ok k) :=
  ⟨by decide, by decide, by decide, by decide, by decide,
    C7_normalize_url_comparison_key.1 "https://x.com/a/" "http://x.com/a"
      ⟨"https", "x.com", "/a/", "", "", ""⟩ ⟨"http", "x.com", "/a", "", "", ""⟩
      "x.com" none none (by decide) (by decide) (by decide) (by decide) (by decide)
      (by decide) (Or.inl rfl) (Or.inl rfl) (by decide) (by decide)⟩

namespace Crawl

/-- `mapM` over `Except` preserves length. -/
theorem mapM_ok_length {α β : Type} (f : α → Except String β) :
    ∀ (l : List α) (xs : List β), l.mapM f = .ok xs → xs.length = l.length := by
  intro l
  induction l with
  | nil =>
    intro xs h
    simp only [List.mapM_nil, pure, Except.pure] at h
    cases h
    rfl
  | cons a t ih =>
    intro xs h
    rw [List.mapM_cons] at h
    cases hfa : f a with
    | error e =>
      rw [hfa] at h
      simp only [bind, Except.bind] at h
      cases h
    | ok b =>
      rw [hfa] at h
      simp only [bind, Except.bind] at h
      cases hrest : t.mapM f with
      | error e =>
        rw [hrest] at h
        cases h
      | ok bs =>
        rw [hrest] at h
        simp only [pure, Except.pure] at h
        cases h
        simp [ih bs hrest]

/-- Fusing two consecutive `Except`-`mapM` passes into one. -/
theorem mapM_mapM_fuse {α β γ : Type} (f : α → Except String β) (g : β → Except String γ) :
    ∀ (l : List α) (xs : List β) (ys : List γ),
      l.mapM f = .ok xs → xs.mapM g = .ok ys →
      l.mapM (fun a => f a >>= g) = .ok ys := by
  intro l
  induction l with
  | nil =>
    intro xs ys h1 h2
    simp only [List.mapM_nil, pure, Except.pure] at h1
    cases h1
    simp only [List.mapM_nil, pure, Except.pure] at h2
    cases h2
    rfl
  | cons a t ih =>
    intro xs ys h1 h2
    rw [List.mapM_cons] at h1
    cases hfa : f a with
    | error e =>
      rw [hfa] at h1
      simp only [bind, Except.bind] at h1
      cases h1
    | ok b =>
      rw [hfa] at h1
      simp only [bind, Except.bind] at h1
      cases hrest : t.mapM f with
      | error e =>
        rw [hrest] at h1
        cases h1
      | ok bs =>
        rw [hrest] at h1
        simp only [pure, Except.pure] at h1
        cases h1
        rw [List.mapM_cons] at h2
        cases hgb : g b with
        | error e =>
          rw [hgb] at h2
          simp only [bind, Except.bind] at h2
          cases h2
        | ok cOut =>
          rw [hgb] at h2
          simp only [bind, Except.bind] at h2
          cases hrest2 : bs.mapM g with
          | error e =>
            rw [hrest2] at h2
            cases h2
          | ok cs =>
            rw [hrest2] at h2
            simp only [pure, Except.pure] at h2
            cases h2
            rw [List.mapM_cons]
            show (f a >>= g) >>= (fun c => (t.mapM fun a => f a >>= g) >>= fun cs => pure (c :: cs)) = _
            rw [hfa]
            show (g b) >>= (fun c => (t.mapM fun a => f a >>= g) >>= fun cs => pure (c :: cs)) = _
            rw [hgb]
            show (t.mapM fun a => f a >>= g) >>= (fun cs => pure (cOut :: cs)) = _
            rw [ih bs cs hrest hrest2]
            rfl

end Crawl

/-- C10: for every (abstracted) HTML document and page URL on which
extraction succeeds, `image_urls` is the canonicalized form of each `<img>`
`src` resolved against the page URL, in document order, with one output per
kept `src` — duplicates are preserved (no deduplication, unlike
`outgoing_links`) and `<img>` tags whose `src` is missing (or empty, which
Python truthiness also skips) contribute nothing. -/
theorem C10_image_urls_order_and_duplicates
    (d : Crawl.HtmlDoc) (u : String) (pd : Crawl.PageData)
    (h : Crawl.extract_page_data d u = .ok pd) :
    ((d.imgs.filterMap Crawl.truthy).mapM
        (fun src => Urllib.urljoinE u src >>= Crawl.canonicalize_url)) = .ok pd.image_urls ∧
    pd.image_urls.length = (d.imgs.filterMap Crawl.truthy).length := by
  cases h1 : Crawl.get_urls_from_html d u with
  | error e =>
    rw [Crawl.extract_page_data, h1] at h
    cases h
  | ok outgoingRaw =>
    rw [Crawl.extract_page_data, h1] at h
    simp only [bind, Except.bind] at h
    cases h2 : outgoingRaw.mapM Crawl.canonicalize_url with
    | error e =>
      rw [h2] at h
      cases h
    | ok oc =>
      rw [h2] at h
      dsimp only at h
      cases h3 : Crawl.get_images_from_html d u with
      | error e =>
        rw [h3] at h
        cases h
      | ok imagesRaw =>
        rw [h3] at h
        dsimp only at h
        cases h4 : imagesRaw.mapM Crawl.canonicalize_url with
        | error e =>
          rw [h4] at h
          cases h
        | ok iu =>
          rw [h4] at h
          dsimp only at h
          simp only [Except.ok.injEq] at h
          subst h
          have hsrc : (d.imgs.filterMap Crawl.truthy).mapM (Urllib.urljoinE u) =
              .ok imagesRaw := h3
          constructor
          · exact Crawl.mapM_mapM_fuse _ _ _ imagesRaw iu hsrc h4
          · have l1 := Crawl.mapM_ok_length _ _ _ hsrc
            have l2 := Crawl.mapM_ok_length _ _ _ h4
            simp only [l2, l1]

/-- C10 witness: a document with a missing `src`, an empty `src`, and a
duplicated image; both occurrences of the duplicate survive. -/
theorem C10_witness :
    let d : Crawl.HtmlDoc :=
      ⟨[], [none, some "/i.png", some "", some "/i.png"], none, none, none⟩
    let pd : Crawl.PageData :=
      ⟨"https://x.com/p", "", "", [], ["https://x.com/i.png", "https://x.com/i.png"]⟩
    Crawl.extract_page_data d "https://x.com/p" = .ok pd ∧
      ((d.imgs.filterMap Crawl.truthy).mapM
        (fun src => Urllib.urljoinE "https://x.com/p" src >>= Crawl.canonicalize_url)) =
        .ok pd.image_urls ∧
      pd.image_urls.length = (d.imgs.filterMap Crawl.truthy).length := by
  intro d pd
  refine ⟨by decide, ?_, ?_⟩
  · exact (C10_image_urls_order_and_duplicates d "https://x.com/p" pd (by decide)).1
  · exact (C10_image_urls_order_and_duplicates d "https://x.com/p" pd (by decide)).2

/-- C3 (code evaluated at the failing input): with `max_retries = 1` and a
server that always answers 404 (`text/html`), `get_html` performs TWO
attempts with a backoff sleep in between before failing — the non-retryable
status is caught by the
`except (aiohttp.ClientError, asyncio.TimeoutError, RuntimeError)` clause
and retried, contradicting the claim that it fails immediately with no
further attempt and no sleep. The same happens for a wrong content type. -/
theorem C3_nonretryable_status_is_retried :
    Fetch.get_html_run 1 (fun _ => .status 404 "text/html" "x") (fun _ => false) =
      (.errHttp 404,
        [.semAcquire, .semRelease, .sleep 0, .semAcquire, .semRelease]) ∧
    Fetch.attemptCount
        [.semAcquire, .semRelease, .sleep 0, .semAcquire, .semRelease] = 2 ∧
    Fetch.sleepCount
        [.semAcquire, .semRelease, .sleep 0, .semAcquire, .semRelease] = 1 ∧
    Fetch.get_html_run 1 (fun _ => .status 200 "application/json" "x") (fun _ => false) =
      (.errContentType "application/json",
        [.semAcquire, .semRelease, .sleep 0, .semAcquire, .semRelease]) := by
  refine ⟨by decide, by decide, by decide, by decide⟩

/-- C5 counterexample: on a 429 response with a retry remaining, the backoff
sleep happens while the semaphore permit is held — the sleep event occurs
between the acquisition and the release. -/
theorem C5_counterexample :
    Fetch.get_html_run 1
        (fun n => if n = 0 then .status 429 "" "" else .status 200 "text/html" "ok")
        (fun _ => false) =
      (.ok "ok",
        [.semAcquire, .respRelease, .sleep 0, .semRelease, .semAcquire, .semRelease]) ∧
    Fetch.sleepsWhileHeld
        [.semAcquire, .respRelease, .sleep 0, .semRelease, .semAcquire, .semRelease] = true := by
  refine ⟨by decide, by decide⟩

/-- C5 (amended): the two retry paths differ. On the transport-error path the
permit is released (by unwinding the `async with`) before the backoff sleep —
a run of pure transport errors never sleeps holding the permit — while on
the retryable-status path (429/503) the backoff sleep happens inside the
semaphore block, i.e. while the permit is held. -/
theorem C5_permit_during_backoff (mr : Nat) (resp : Nat → Fetch.Resp) (hmr : 1 ≤ mr) :
    ((∀ i, resp i = .transportErr) →
      Fetch.sleepsWhileHeld ((Fetch.get_html_run mr resp (fun _ => false)).2) = false) ∧
    (∀ code ct body, Fetch.RETRYABLE_STATUS.contains code = true →
      resp 0 = .status code ct body →
      (∃ rest, (Fetch.get_html_run mr resp (fun _ => false)).2 =
        .semAcquire :: .respRelease :: .sleep 0 :: .semRelease :: rest) ∧
      Fetch.sleepsWhileHeld ((Fetch.get_html_run mr resp (fun _ => false)).2) = true) ∧
    (resp 0 = .transportErr →
      ∃ rest, (Fetch.get_html_run mr resp (fun _ => false)).2 =
        .semAcquire :: .semRelease :: .sleep 0 :: rest) := by
  refine ⟨?_, ?_, ?_⟩
  · intro hall
    have main : ∀ (fuel attempt : Nat),
        Fetch.sleepsWhileHeldFrom 0
          ((Fetch.getHtmlGo mr resp (fun _ => false) attempt fuel).2) = false := by
      intro fuel
      induction fuel with
      | zero =>
        intro attempt
        rfl
      | succ f ih =>
        intro attempt
        rw [Fetch.getHtmlGo]
        rw [hall attempt]
        by_cases hlt : attempt < mr
        · rw [if_pos hlt]
          show Fetch.sleepsWhileHeldFrom 0
            (.semAcquire :: .semRelease :: .sleep attempt ::
              (Fetch.getHtmlGo mr resp (fun _ => false) (attempt + 1) f).2) = false
          show Fetch.sleepsWhileHeldFrom 0
            ((Fetch.getHtmlGo mr resp (fun _ => false) (attempt + 1) f).2) = false
          exact ih (attempt + 1)
        · rw [if_neg hlt]
          rfl
    exact main (mr + 1) 0
  · intro code ct body hcode hresp
    have hne : ¬ (0 = mr) := by omega
    have hevs : (Fetch.get_html_run mr resp (fun _ => false)).2 =
        .semAcquire :: .respRelease :: .sleep 0 :: .semRelease ::
          (Fetch.getHtmlGo mr resp (fun _ => false) 1 mr).2 := by
      show (Fetch.getHtmlGo mr resp (fun _ => false) 0 (mr + 1)).2 = _
      rw [Fetch.getHtmlGo]
      rw [hresp]
      simp only [hcode, if_true, if_neg hne]
      rfl
    refine ⟨⟨_, hevs⟩, ?_⟩
    rw [hevs]
    rfl
  · intro hresp
    have hlt : 0 < mr := hmr
    have hevs : (Fetch.get_html_run mr resp (fun _ => false)).2 =
        .semAcquire :: .semRelease :: .sleep 0 ::
          (Fetch.getHtmlGo mr resp (fun _ => false) 1 mr).2 := by
      show (Fetch.getHtmlGo mr resp (fun _ => false) 0 (mr + 1)).2 = _
      rw [Fetch.getHtmlGo]
      rw [hresp]
      simp only [if_pos hlt]
      rfl
    exact ⟨_, hevs⟩

/-- C5 witness: the amended theorem applied at the counterexample input. -/
theorem C5_witness :
    1 ≤ 1 ∧
    ((∃ rest, (Fetch.get_html_run 1
        (fun n => if n = 0 then .status 429 "" "" else .status 200 "text/html" "ok")
        (fun _ => false)).2 =
      .semAcquire :: .respRelease :: .sleep 0 :: .semRelease :: rest) ∧
    Fetch.sleepsWhileHeld ((Fetch.get_html_run 1
        (fun n => if n = 0 then .status 429 "" "" else .status 200 "text/html" "ok")
        (fun _ => false)).2) = true) :=
  ⟨by decide,
    (C5_permit_during_backoff 1
        (fun n => if n = 0 then .status 429 "" "" else .status 200 "text/html" "ok")
        (by decide)).2.1 429 "" "" (by decide) (by decide)⟩

namespace Engine

theorem keys_setEntry (k : String) (v : Crawl.PageData)
    (m : List (String × Crawl.PageData)) :
    (setEntry k v m).map Prod.fst = m.map Prod.fst := by
  induction m with
  | nil => rfl
  | cons e t ih =>
    simp only [setEntry, List.map_cons] at *
    by_cases he : e.1 = k
    · rw [if_pos he]
      simp [ih, he]
    · rw [if_neg he]
      simp [ih]

theorem keys_setEntryUrl (k u : String) (m : List (String × Crawl.PageData)) :
    (setEntryUrl k u m).map Prod.fst = m.map Prod.fst := by
  induction m with
  | nil => rfl
  | cons e t ih =>
    simp only [setEntryUrl, List.map_cons] at *
    by_cases he : e.1 = k
    · rw [if_pos he]
      simp [ih, he]
    · rw [if_neg he]
      simp [ih]

theorem lookup_map_upd (f : Crawl.PageData → Crawl.PageData) (k k2 : String)
    (m : List (String × Crawl.PageData)) :
    List.lookup k (m.map fun kv => if kv.1 = k2 then (kv.1, f kv.2) else kv) =
      if k = k2 then (List.lookup k m).map f else List.lookup k m := by
  induction m with
  | nil => by_cases h : k = k2 <;> simp [h]
  | cons e t ih =>
    obtain ⟨k1, w⟩ := e
    by_cases hk : k = k1
    · subst hk
      by_cases he : k = k2
      · rw [List.map_cons, if_pos (show ((k, w)).1 = k2 from he)]
        simp [List.lookup, he]
      · rw [List.map_cons, if_neg (show ¬ ((k, w)).1 = k2 from he)]
        simp [List.lookup, he]
    · by_cases he : k1 = k2
      · rw [List.map_cons, if_pos (show ((k1, w)).1 = k2 from he)]
        simp [List.lookup, beq_false_of_ne hk, ih]
      · rw [List.map_cons, if_neg (show ¬ ((k1, w)).1 = k2 from he)]
        simp [List.lookup, beq_false_of_ne hk, ih]

theorem lookup_append_single_ne (k k2 : String) (v : Crawl.PageData)
    (m : List (String × Crawl.PageData)) (h : ¬ k = k2) :
    List.lookup k (m ++ [(k2, v)]) = List.lookup k m := by
  induction m with
  | nil => simp [List.lookup, beq_false_of_ne h]
  | cons e t ih =>
    obtain ⟨k1, w⟩ := e
    by_cases hk : k = k1
    · subst hk
      simp [List.lookup]
    · simp [List.lookup, beq_false_of_ne hk, ih]

theorem lookup_append_single_self (k : String) (v : Crawl.PageData)
    (m : List (String × Crawl.PageData)) (h : ¬ k ∈ m.map Prod.fst) :
    List.lookup k (m ++ [(k, v)]) = some v := by
  induction m with
  | nil => simp [List.lookup]
  | cons e t ih =>
    obtain ⟨k1, w⟩ := e
    have hk : ¬ k = k1 := by
      intro hc
      exact h (by simp [hc])
    have ht : ¬ k ∈ t.map Prod.fst := by
      intro hc
      exact h (by simp [hc])
    simp [List.lookup, beq_false_of_ne hk, ih ht]

end Engine

namespace Engine

theorem step_pageData_len {mp : Nat} {s s' : EngSt} {l : Label}
    (h : Step mp s l s') (hle : s.pageData.length ≤ mp) :
    s'.pageData.length ≤ mp := by
  cases h <;> simp_all [setEntry, setEntryUrl] <;> omega

theorem exec_pageData_len {mp : Nat} {s0 s : EngSt} {ls : List Label}
    (h : Exec mp s0 ls s) (h0 : s0.pageData.length ≤ mp) :
    s.pageData.length ≤ mp := by
  induction h with
  | nil => exact h0
  | snoc he hs ih => exact step_pageData_len hs ih

theorem step_keys_nodup {mp : Nat} {s s' : EngSt} {l : Label}
    (h : Step mp s l s') (hn : (keys s).Nodup) : (keys s').Nodup := by
  cases h with
  | spawn pd stop ts kk u => exact hn
  | accept pd ts1 ts2 t hph habs hlen =>
      simp only [keys] at *
      simp [List.nodup_append, hn, habs]
  | rejectStopped pd ts1 ts2 t hph => exact hn
  | rejectDup pd ts1 ts2 t hph hmem => exact hn
  | budgetHit pd ts1 ts2 t hph habs hlen => exact hn
  | fetchStart pd stop ts1 ts2 t hph =>
      simpa only [keys, keys_setEntryUrl] using hn
  | fetchFail pd stop ts1 ts2 t hph => exact hn
  | finish pd stop ts1 ts2 t d hph =>
      simpa only [keys, keys_setEntry] using hn
  | dropTask pd stop ts1 ts2 t hph => exact hn

theorem exec_keys_nodup {mp : Nat} {s0 s : EngSt} {ls : List Label}
    (h : Exec mp s0 ls s) (h0 : (keys s0).Nodup) : (keys s).Nodup := by
  induction h with
  | nil => exact h0
  | snoc he hs ih => exact step_keys_nodup hs ih

theorem countAdmit_append (k : String) (ls : List Label) (l : Label) :
    countAdmit k (ls ++ [l]) =
      countAdmit k ls + (if l = .accept k then 1 else 0) := by
  simp [countAdmit, List.countP_append, List.countP_cons]

theorem countFetchStart_append (k : String) (ls : List Label) (l : Label) :
    countFetchStart k (ls ++ [l]) =
      countFetchStart k ls + (if l = .fetchStart k then 1 else 0) := by
  simp [countFetchStart, List.countP_append, List.countP_cons]

theorem countFinish_append (k : String) (ls : List Label) (l : Label) :
    countFinish k (ls ++ [l]) =
      countFinish k ls +
        (match l with | .finish k2 _ => if k2 = k then 1 else 0 | _ => 0) := by
  cases l <;> simp [countFinish, List.countP_append, List.countP_cons]

theorem countP_zipper (p : TaskSt → Bool) (ts1 ts2 : List TaskSt) (t : TaskSt) :
    (ts1 ++ t :: ts2).countP p =
      ts1.countP p + ts2.countP p + (if p t then 1 else 0) := by
  simp [List.countP_append, List.countP_cons]
  omega

theorem countP_cancelAll (p : TaskSt → Bool)
    (hp : ∀ t, p { t with cancelled := true } = p t) (ts : List TaskSt) :
    (cancelAll ts).countP p = ts.countP p := by
  rw [cancelAll, List.countP_map]
  exact List.countP_congr fun t _ => by simp [Function.comp, hp t]

end Engine

namespace Engine

theorem admittedCount_mk (k : String) (pd : List (String × Crawl.PageData))
    (stop : Bool) (ts : List TaskSt) :
    admittedCount k ⟨pd, stop, ts⟩ =
      ts.countP fun t => t.key = k ∧ t.phase = .admitted := rfl

theorem lookup_setEntry (k k2 : String) (v : Crawl.PageData)
    (m : List (String × Crawl.PageData)) :
    List.lookup k (setEntry k2 v m) =
      if k = k2 then (List.lookup k m).map (fun _ => v) else List.lookup k m :=
  lookup_map_upd (fun _ => v) k k2 m

theorem lookup_setEntryUrl (k k2 u : String)
    (m : List (String × Crawl.PageData)) :
    List.lookup k (setEntryUrl k2 u m) =
      if k = k2 then (List.lookup k m).map (fun r => { r with url := u })
      else List.lookup k m :=
  lookup_map_upd (fun r => { r with url := u }) k k2 m

theorem exec_key_inv_gen {mp : Nat} {s0 : EngSt} {ls : List Label} {s : EngSt}
    (h : Exec mp s0 ls s) (k : String) :
    s0 = init →
    countAdmit k ls ≤ 1 ∧
    (k ∈ keys s ↔ countAdmit k ls = 1) ∧
    countFetchStart k ls + admittedCount k s = countAdmit k ls ∧
    (countFinish k ls = 0 → ∀ r, List.lookup k s.pageData = some r →
      ∃ u, r = { placeholder with url := u }) := by
  induction h with
  | nil =>
      intro h0
      subst h0
      refine ⟨by simp [countAdmit], ?_, ?_, ?_⟩
      · simp [keys, init, countAdmit]
      · simp [countFetchStart, countAdmit, admittedCount, init]
      · intro _ r hr
        simp [init, List.lookup] at hr
  | @snoc s2 s3 ls1 lab he hs ih =>
      intro h0
      obtain ⟨ihA, ihB, ihC, ihD⟩ := ih h0
      cases hs with
      | spawn pd stop ts kk u =>
          refine ⟨?_, ?_, ?_, ?_⟩
          · simpa [countAdmit_append] using ihA
          · rw [countAdmit_append, if_neg (by simp)]
            simpa [keys] using ihB
          · rw [countFetchStart_append, if_neg (by simp),
              countAdmit_append, if_neg (by simp), admittedCount_mk,
              List.countP_append]
            rw [admittedCount_mk] at ihC
            simp only [List.countP_cons, List.countP_nil]
            rw [if_neg (by simp)]
            omega
          · intro hfin r hr
            refine ihD ?_ r hr
            simpa [countFinish_append] using hfin
      | accept pd ts1 ts2 t hph habs hlen =>
          by_cases hk : t.key = k
          · subst hk
            have hnot1 : ¬ countAdmit t.key ls1 = 1 := fun hc => habs (ihB.mpr hc)
            have hadm0 : countAdmit t.key ls1 = 0 := by omega
            refine ⟨?_, ?_, ?_, ?_⟩
            · rw [countAdmit_append, if_pos rfl, hadm0]
            · rw [countAdmit_append, if_pos rfl, hadm0]
              simp [keys]
            · rw [countFetchStart_append, if_neg (by simp),
                countAdmit_append, if_pos rfl, admittedCount_mk, countP_zipper,
                if_pos (by simp)]
              rw [admittedCount_mk, countP_zipper, if_neg (by simp [hph])] at ihC
              omega
            · intro hfin r hr
              rw [lookup_append_single_self t.key placeholder pd habs] at hr
              refine ⟨"", ?_⟩
              have : placeholder = r := by simpa using hr
              rw [← this]
              rfl
          · refine ⟨?_, ?_, ?_, ?_⟩
            · rw [countAdmit_append, if_neg (by simp [hk])]
              simpa using ihA
            · rw [countAdmit_append, if_neg (by simp [hk])]
              simp only [keys, List.map_append, List.map_cons, List.map_nil,
                List.mem_append, List.mem_singleton, Nat.add_zero]
              constructor
              · rintro (hm | hm)
                · exact ihB.mp hm
                · exact absurd hm (fun h2 => hk h2.symm)
              · intro h1
                exact Or.inl (ihB.mpr h1)
            · rw [countFetchStart_append, if_neg (by simp),
                countAdmit_append, if_neg (by simp [hk]), admittedCount_mk,
                countP_zipper, if_neg (by simp [hk])]
              rw [admittedCount_mk, countP_zipper, if_neg (by simp [hph])] at ihC
              omega
            · intro hfin r hr
              rw [lookup_append_single_ne k t.key placeholder pd
                (fun h2 => hk h2.symm)] at hr
              refine ihD ?_ r hr
              simpa [countFinish_append] using hfin
      | rejectStopped pd ts1 ts2 t hph =>
          refine ⟨?_, ?_, ?_, ?_⟩
          · simpa [countAdmit_append] using ihA
          · rw [countAdmit_append, if_neg (by simp)]
            simpa [keys] using ihB
          · rw [countFetchStart_append, if_neg (by simp),
              countAdmit_append, if_neg (by simp), admittedCount_mk,
              countP_zipper, if_neg (by simp)]
            rw [admittedCount_mk, countP_zipper, if_neg (by simp [hph])] at ihC
            omega
          · intro hfin r hr
            refine ihD ?_ r hr
            simpa [countFinish_append] using hfin
      | rejectDup pd ts1 ts2 t hph hmem =>
          refine ⟨?_, ?_, ?_, ?_⟩
          · simpa [countAdmit_append] using ihA
          · rw [countAdmit_append, if_neg (by simp)]
            simpa [keys] using ihB
          · rw [countFetchStart_append, if_neg (by simp),
              countAdmit_append, if_neg (by simp), admittedCount_mk,
              countP_zipper, if_neg (by simp)]
            rw [admittedCount_mk, countP_zipper, if_neg (by simp [hph])] at ihC
            omega
          · intro hfin r hr
            refine ihD ?_ r hr
            simpa [countFinish_append] using hfin
      | budgetHit pd ts1 ts2 t hph habs hlen =>
          refine ⟨?_, ?_, ?_, ?_⟩
          · simpa [countAdmit_append] using ihA
          · rw [countAdmit_append, if_neg (by simp)]
            simpa [keys] using ihB
          · rw [countFetchStart_append, if_neg (by simp),
              countAdmit_append, if_neg (by simp), admittedCount_mk,
              countP_cancelAll (fun t2 => decide (t2.key = k ∧ t2.phase = Phase.admitted)) (fun t2 => rfl), countP_zipper,
              if_neg (by simp)]
            rw [admittedCount_mk, countP_zipper, if_neg (by simp [hph])] at ihC
            omega
          · intro hfin r hr
            refine ihD ?_ r hr
            simpa [countFinish_append] using hfin
      | fetchStart pd stop ts1 ts2 t hph =>
          by_cases hk : t.key = k
          · subst hk
            refine ⟨?_, ?_, ?_, ?_⟩
            · simpa [countAdmit_append] using ihA
            · rw [countAdmit_append, if_neg (by simp)]
              simpa [keys, keys_setEntryUrl] using ihB
            · rw [countFetchStart_append, if_pos rfl,
                countAdmit_append, if_neg (by simp), admittedCount_mk,
                countP_zipper, if_neg (by simp)]
              rw [admittedCount_mk, countP_zipper, if_pos (by simp [hph])] at ihC
              omega
            · intro hfin r hr
              have hfin0 : countFinish t.key ls1 = 0 := by
                simpa [countFinish_append] using hfin
              rw [lookup_setEntryUrl, if_pos rfl] at hr
              cases hlk : List.lookup t.key pd with
              | none =>
                  rw [hlk] at hr
                  simp at hr
              | some r0 =>
                  rw [hlk] at hr
                  simp only [Option.map_some'] at hr
                  obtain ⟨u0, hu0⟩ := ihD hfin0 r0 hlk
                  refine ⟨t.url, ?_⟩
                  have hr' : { r0 with url := t.url } = r := by simpa using hr
                  rw [← hr', hu0]
          · refine ⟨?_, ?_, ?_, ?_⟩
            · simpa [countAdmit_append] using ihA
            · rw [countAdmit_append, if_neg (by simp)]
              simpa [keys, keys_setEntryUrl] using ihB
            · rw [countFetchStart_append, if_neg (by simp [hk]),
                countAdmit_append, if_neg (by simp), admittedCount_mk,
                countP_zipper, if_neg (by simp [hk])]
              rw [admittedCount_mk, countP_zipper, if_neg (by simp [hk])] at ihC
              omega
            · intro hfin r hr
              rw [lookup_setEntryUrl, if_neg (fun h2 => hk h2.symm)] at hr
              refine ihD ?_ r hr
              simpa [countFinish_append] using hfin
      | fetchFail pd stop ts1 ts2 t hph =>
          refine ⟨?_, ?_, ?_, ?_⟩
          · simpa [countAdmit_append] using ihA
          · rw [countAdmit_append, if_neg (by simp)]
            simpa [keys] using ihB
          · rw [countFetchStart_append, if_neg (by simp),
              countAdmit_append, if_neg (by simp), admittedCount_mk,
              countP_zipper, if_neg (by simp)]
            rw [admittedCount_mk, countP_zipper, if_neg (by simp [hph])] at ihC
            omega
          · intro hfin r hr
            refine ihD ?_ r hr
            simpa [countFinish_append] using hfin
      | finish pd stop ts1 ts2 t d hph =>
          by_cases hk : t.key = k
          · subst hk
            refine ⟨?_, ?_, ?_, ?_⟩
            · simpa [countAdmit_append] using ihA
            · rw [countAdmit_append, if_neg (by simp)]
              simpa [keys, keys_setEntry] using ihB
            · rw [countFetchStart_append, if_neg (by simp),
                countAdmit_append, if_neg (by simp), admittedCount_mk,
                countP_zipper, if_neg (by simp)]
              rw [admittedCount_mk, countP_zipper, if_neg (by simp [hph])] at ihC
              omega
            · intro hfin r hr
              exfalso
              rw [countFinish_append] at hfin
              simp at hfin
          · refine ⟨?_, ?_, ?_, ?_⟩
            · simpa [countAdmit_append] using ihA
            · rw [countAdmit_append, if_neg (by simp)]
              simpa [keys, keys_setEntry] using ihB
            · rw [countFetchStart_append, if_neg (by simp),
                countAdmit_append, if_neg (by simp), admittedCount_mk,
                countP_zipper, if_neg (by simp)]
              rw [admittedCount_mk, countP_zipper, if_neg (by simp [hph])] at ihC
              omega
            · intro hfin r hr
              rw [lookup_setEntry, if_neg (fun h2 => hk h2.symm)] at hr
              refine ihD ?_ r hr
              rw [countFinish_append] at hfin
              simpa [hk] using hfin
      | dropTask pd stop ts1 ts2 t hph =>
          refine ⟨?_, ?_, ?_, ?_⟩
          · simpa [countAdmit_append] using ihA
          · rw [countAdmit_append, if_neg (by simp)]
            simpa [keys] using ihB
          · rw [countFetchStart_append, if_neg (by simp),
              countAdmit_append, if_neg (by simp), admittedCount_mk,
              countP_zipper, if_neg (by simp)]
            rw [admittedCount_mk, countP_zipper, if_neg (by simp [hph])] at ihC
            omega
          · intro hfin r hr
            refine ihD ?_ r hr
            simpa [countFinish_append] using hfin

theorem exec_key_inv {mp : Nat} {ls : List Label} {s : EngSt}
    (h : Exec mp init ls s) (k : String) :
    countAdmit k ls ≤ 1 ∧
    (k ∈ keys s ↔ countAdmit k ls = 1) ∧
    countFetchStart k ls + admittedCount k s = countAdmit k ls ∧
    (countFinish k ls = 0 → ∀ r, List.lookup k s.pageData = some r →
      ∃ u, r = { placeholder with url := u }) :=
  exec_key_inv_gen h k rfl

end Engine

/-- C1: at every reachable point of a crawl run (hence also at the instant
`crawl()` returns), the result map `page_data` holds at most `maxPages`
entries: the size check and the placeholder insertion of `add_page_visit`
(src/crawl.py:262-289) are one atomic section under `self.lock`, and it is
the only code path that grows the map. -/
theorem C1_page_data_bounded (mp : Nat) (s : Engine.EngSt)
    (h : Engine.Reachable mp s) : s.pageData.length ≤ mp := by
  obtain ⟨ls, he⟩ := h
  exact Engine.exec_pageData_len he (by simp [Engine.init])

/-- C1 witness: the bound evaluated on the state reached by spawning one task
and accepting its key at budget 1. -/
theorem C1_witness :
    Engine.Reachable 1
      ⟨[("k", Engine.placeholder)], false, [⟨"k", "u", .admitted, false⟩]⟩ ∧
    (Engine.EngSt.mk [("k", Engine.placeholder)] false
      [⟨"k", "u", .admitted, false⟩]).pageData.length ≤ 1 :=
  have hr : Engine.Reachable 1
      ⟨[("k", Engine.placeholder)], false, [⟨"k", "u", .admitted, false⟩]⟩ :=
    ⟨[.spawn "k" "u", .accept "k"],
      .snoc (.snoc (.nil Engine.init) (.spawn [] false [] "k" "u"))
        (.accept [] [] [] ⟨"k", "u", .ready, false⟩ rfl (by decide) (by decide))⟩
  ⟨hr, C1_page_data_bounded 1 _ hr⟩

/-- C2: along every crawl run, each canonical key is accepted into the result
map at most once (`add_page_visit` returns `True` at most once per key), at
most one fetch is started for it, the keys of the result map are pairwise
distinct, and a key is present in the map exactly when it was accepted once. -/
theorem C2_unique_admission_single_fetch (mp : Nat) (ls : List Engine.Label)
    (s : Engine.EngSt) (k : String) (h : Engine.Exec mp Engine.init ls s) :
    Engine.countAdmit k ls ≤ 1 ∧ Engine.countFetchStart k ls ≤ 1 ∧
    (Engine.keys s).Nodup ∧
    (k ∈ Engine.keys s ↔ Engine.countAdmit k ls = 1) := by
  obtain ⟨hA, hB, hC, -⟩ := Engine.exec_key_inv h k
  exact ⟨hA, by omega,
    Engine.exec_keys_nodup h (by simp [Engine.init, Engine.keys]), hB⟩

/-- C2 witness: the uniqueness facts evaluated on a three-step run that
spawns, accepts and starts fetching a single key. -/
theorem C2_witness :
    Engine.countAdmit "k" [.spawn "k" "u", .accept "k", .fetchStart "k"] ≤ 1 ∧
    Engine.countFetchStart "k"
      [.spawn "k" "u", .accept "k", .fetchStart "k"] ≤ 1 ∧
    (Engine.keys ⟨[("k", ⟨"u", "", "", [], []⟩)], false,
      [⟨"k", "u", .fetching, false⟩]⟩).Nodup ∧
    ("k" ∈ Engine.keys ⟨[("k", ⟨"u", "", "", [], []⟩)], false,
      [⟨"k", "u", .fetching, false⟩]⟩ ↔
      Engine.countAdmit "k" [.spawn "k" "u", .accept "k", .fetchStart "k"] = 1) :=
  C2_unique_admission_single_fetch 1 _ _ "k"
    (.snoc (.snoc (.snoc (.nil Engine.init) (.spawn [] false [] "k" "u"))
        (.accept [] [] [] ⟨"k", "u", .ready, false⟩ rfl (by decide) (by decide)))
      (.fetchStart [("k", Engine.placeholder)] false [] []
        ⟨"k", "u", .admitted, false⟩ rfl))

/-- C4 counterexample: a run in which the only fetch fails after its slot was
reserved ends with every task done, no extraction recorded, and the result
map still holding the reserved entry `{url: "u", h1: "", first_paragraph: "",
outgoing_links: [], image_urls: []}` — `crawl_page` has no removal path for a
reserved key whose fetch raises (src/crawl.py:387-392), so the returned map
is not restricted to successfully extracted pages. -/
theorem C4_counterexample :
    ∃ s : Engine.EngSt,
      Engine.Exec 1 Engine.init
        [.spawn "k" "u", .accept "k", .fetchStart "k", .fetchFail "k"] s ∧
      Engine.allDone s = true ∧
      Engine.countFinish "k"
        [.spawn "k" "u", .accept "k", .fetchStart "k", .fetchFail "k"] = 0 ∧
      List.lookup "k" s.pageData = some ⟨"u", "", "", [], []⟩ :=
  ⟨⟨[("k", ⟨"u", "", "", [], []⟩)], false, [⟨"k", "u", .done, false⟩]⟩,
    .snoc (.snoc (.snoc (.snoc (.nil Engine.init) (.spawn [] false [] "k" "u"))
        (.accept [] [] [] ⟨"k", "u", .ready, false⟩ rfl (by decide) (by decide)))
      (.fetchStart [("k", Engine.placeholder)] false [] []
        ⟨"k", "u", .admitted, false⟩ rfl))
      (.fetchFail [("k", ⟨"u", "", "", [], []⟩)] false [] []
        ⟨"k", "u", .fetching, false⟩ rfl),
    rfl, rfl, rfl⟩

/-- C4 (amended): after any crawl run, an entry of the result map whose key
never had a successful extraction recorded is exactly the reserved
placeholder, possibly with its `url` field filled in by the pre-fetch update
(src/crawl.py:384-385); all other fields are still empty. -/
theorem C4_unfinished_entries_are_placeholders (mp : Nat)
    (ls : List Engine.Label) (s : Engine.EngSt) (k : String)
    (h : Engine.Exec mp Engine.init ls s)
    (hnf : Engine.countFinish k ls = 0) (r : Crawl.PageData)
    (hr : List.lookup k s.pageData = some r) :
    ∃ u, r = { Engine.placeholder with url := u } :=
  (Engine.exec_key_inv h k).2.2.2 hnf r hr

/-- C4 witness: the placeholder shape of the failed key's entry on the
concrete failing run. -/
theorem C4_witness :
    ∃ u, (⟨"u", "", "", [], []⟩ : Crawl.PageData) =
      { Engine.placeholder with url := u } :=
  C4_unfinished_entries_are_placeholders 1
    [.spawn "k" "u", .accept "k", .fetchStart "k", .fetchFail "k"]
    ⟨[("k", ⟨"u", "", "", [], []⟩)], false, [⟨"k", "u", .done, false⟩]⟩ "k"
    (.snoc (.snoc (.snoc (.snoc (.nil Engine.init) (.spawn [] false [] "k" "u"))
        (.accept [] [] [] ⟨"k", "u", .ready, false⟩ rfl (by decide) (by decide)))
      (.fetchStart [("k", Engine.placeholder)] false [] []
        ⟨"k", "u", .admitted, false⟩ rfl))
      (.fetchFail [("k", ⟨"u", "", "", [], []⟩)] false [] []
        ⟨"k", "u", .fetching, false⟩ rfl))
    rfl ⟨"u", "", "", [], []⟩ rfl

/-- C6 counterexample: the stop flag does not flip "at the instant the result
map reaches maxPages entries". With `maxPages = 1`, after one key is accepted
the map already holds 1 entry, yet `should_stop` is still `False`: the flag
only flips when a LATER `add_page_visit` call finds the map full
(src/crawl.py:271-279), which may never happen. -/
theorem C6_counterexample :
    ∃ s : Engine.EngSt,
      Engine.Exec 1 Engine.init [.spawn "k" "u", .accept "k"] s ∧
      s.pageData.length = 1 ∧ s.shouldStop = false :=
  ⟨⟨[("k", Engine.placeholder)], false, [⟨"k", "u", .admitted, false⟩]⟩,
    .snoc (.snoc (.nil Engine.init) (.spawn [] false [] "k" "u"))
      (.accept [] [] [] ⟨"k", "u", .ready, false⟩ rfl (by decide) (by decide)),
    rfl, rfl⟩

/-- C6 (amended): `should_stop` is monotone (never resets to `false`); while
it is `true` no step is an acceptance; and the only step that flips it from
`false` to `true` is a budget-hit inside `add_page_visit`, which can only
happen when the result map already holds exactly `maxPages` entries and which
cancels every task in the live registry in the same atomic section. -/
theorem C6_stop_monotone_flip_cancels (mp : Nat) (s s2 : Engine.EngSt)
    (l : Engine.Label) (hreach : Engine.Reachable mp s)
    (hstep : Engine.Step mp s l s2) :
    (s.shouldStop = true → s2.shouldStop = true) ∧
    (s.shouldStop = true → ∀ k, l ≠ .accept k) ∧
    (s.shouldStop = false → s2.shouldStop = true →
      (∃ k, l = .budgetHit k) ∧ s.pageData.length = mp ∧
      ∀ t ∈ s2.tasks, t.cancelled = true) := by
  obtain ⟨ls, he⟩ := hreach
  have hlen : s.pageData.length ≤ mp :=
    Engine.exec_pageData_len he (by simp [Engine.init])
  refine ⟨?_, ?_, ?_⟩
  · intro hst
    cases hstep <;> simp_all
  · intro hst k
    cases hstep <;> simp_all
  · intro hs0 hs1
    cases hstep with
    | spawn pd stop ts kk u => simp_all
    | accept pd ts1 ts2 t hph habs hlen2 => simp_all
    | rejectStopped pd ts1 ts2 t hph => simp_all
    | rejectDup pd ts1 ts2 t hph hmem => simp_all
    | budgetHit pd ts1 ts2 t hph habs hlen2 =>
        dsimp only at hlen
        refine ⟨⟨t.key, rfl⟩, by dsimp only; omega, ?_⟩
        intro t2 ht2
        dsimp only at ht2
        simp only [Engine.cancelAll, List.mem_map] at ht2
        obtain ⟨t3, -, ht3⟩ := ht2
        rw [← ht3]
    | fetchStart pd stop ts1 ts2 t hph => simp_all
    | fetchFail pd stop ts1 ts2 t hph => simp_all
    | finish pd stop ts1 ts2 t d hph => simp_all
    | dropTask pd stop ts1 ts2 t hph => simp_all

/-- C6 witness: the flip facts evaluated on a budget-hit step taken from a
reachable full state at budget 1. -/
theorem C6_witness :
    (∃ k, Engine.Label.budgetHit "k2" = .budgetHit k) ∧
    ([(("k" : String), Engine.placeholder)]).length = 1 ∧
    ∀ t ∈ Engine.cancelAll
      [⟨"k", "u", .admitted, false⟩, ⟨"k2", "u2", .done, false⟩],
      t.cancelled = true :=
  (C6_stop_monotone_flip_cancels 1
    ⟨[("k", Engine.placeholder)], false,
      [⟨"k", "u", .admitted, false⟩, ⟨"k2", "u2", .ready, false⟩]⟩
    ⟨[("k", Engine.placeholder)], true,
      Engine.cancelAll [⟨"k", "u", .admitted, false⟩, ⟨"k2", "u2", .done, false⟩]⟩
    (.budgetHit "k2")
    ⟨[.spawn "k" "u", .accept "k", .spawn "k2" "u2"],
      .snoc (.snoc (.snoc (.nil Engine.init) (.spawn [] false [] "k" "u"))
          (.accept [] [] [] ⟨"k", "u", .ready, false⟩ rfl (by decide) (by decide)))
        (.spawn [("k", Engine.placeholder)] false
          [⟨"k", "u", .admitted, false⟩] "k2" "u2")⟩
    (.budgetHit [("k", Engine.placeholder)] [⟨"k", "u", .admitted, false⟩] []
      ⟨"k2", "u2", .ready, false⟩ rfl (by decide) (by decide))).2.2 rfl rfl
